import Mathlib

/-!
# Matrix-treads: sequential and row-partitioned matrix multiplication

A shallow embedding of `src/main.cpp` (class `Matrix`) together with theorems about it.

Modelling conventions

* `double` is an arbitrary scalar type `α`.  The multiplication code only needs `0`, `+`
  and `*` on it, so everything about `operator*`, `blockMult` and `fastMult` is proved for
  every interpretation of these three operations.  The comparison `operator==` needs the
  difference, `std::fabs`, `>` and the constant epsilon; they are the class `Tolerance`,
  and what is proved about `operator==` in general holds for every interpretation of them.
* Two interpretations are used at concrete values: exact arithmetic in a linear ordered
  field (`exactTolerance`), and `Dbl`, the values of an IEEE 754 binary64 `double` with
  round-to-nearest-even results, overflow to the infinities and NaN.
* `std::vector<double>` is a `List α`.  `operator[]` outside the vector is undefined
  behaviour in C++; here every read and write is bounds checked and yields
  `Fault.outOfRange`.  Integer division by zero yields `Fault.divisionByZero`.
* The product `N*N`, which the program computes in `size_t`, is taken modulo `2 ^ 64`
  wherever it sizes a vector or bounds a loop.  The index expressions `i*N + j` are in
  `ℕ`: on a matrix that satisfies `Matrix.WF` they stay below `N * N < 2 ^ 64`.
* `fastMult` starts one thread per row block and joins them all.  The workers only read
  `a` and `b` and write the result; the embedding runs them one after the other in the
  order in which they are started.
* `Random` takes the values drawn from the generator as a function of the draw number,
  and `operator<<` takes the rendering of a `double` as a function to strings.
* `return res;` hands the local matrix itself to the caller (copy elision, as the
  compilers in use do for a single named local); the copy constructor, which does not
  copy the elements, is not run on the way out of `operator*`, `fastMult` or `Random`.
-/

namespace MatrixTreads

set_option exponentiation.threshold 9000

/-- Ways in which a call can fail.  The first two are the undefined behaviours the C++ code
can run into; the last two are the error kinds named by the specification, which no
function below ever produces. -/
inductive Fault where
  | divisionByZero
  | outOfRange
  | dimensionMismatch
  | invalidPartitionCount
  deriving DecidableEq, Repr

/-- The class `Matrix`: the dimension `N` and the row-major element vector `data`. -/
structure Matrix (α : Type) where
  N : Nat
  data : List α
  deriving DecidableEq, Repr

/-- Number of values of the type `size_t`, in which the program computes `N * N`. -/
def sizeMod : Nat := 2 ^ 64

/-- Size invariant of the class, for a matrix in memory: the vector holds `N * N`
elements.  The size of a `std::vector` is a `size_t`, so this product is below `2 ^ 64`
and is the value of the expression `N*N` of the program. -/
def Matrix.WF {α : Type} (m : Matrix α) : Prop :=
  m.data.length = m.N * m.N ∧ m.N * m.N < sizeMod

instance {α : Type} (m : Matrix α) : Decidable m.WF := by
  unfold Matrix.WF
  infer_instance

section Code

variable {α : Type}

/-- Read access `v[i]` on a vector. -/
def readAt (v : List α) (i : Nat) : Except Fault α :=
  match v.get? i with
  | some x => .ok x
  | none => .error .outOfRange

/-- Write access `v[i] = x` on a vector. -/
def writeAt (v : List α) (i : Nat) (x : α) : Except Fault (List α) :=
  if i < v.length then .ok (v.set i x) else .error .outOfRange

/-- Constructor `Matrix(size_t N)`: `data = std::vector<double>(N*N)`, value-initialised,
with the product `N*N` taken in `size_t`. -/
def Matrix.create [Zero α] (N : Nat) : Matrix α :=
  { N := N, data := List.replicate (N * N % sizeMod) 0 }

/-- Member `operator*`: the triple loop over `i`, `j`, `k` writing into a fresh `res`. -/
def Matrix.mul [Zero α] [Add α] [Mul α] (self b : Matrix α) : Except Fault (Matrix α) :=
  let N := self.N
  let res : Matrix α := Matrix.create N
  do
    let d ← (List.range N).foldlM (fun (d : List α) (i : Nat) =>
      (List.range N).foldlM (fun (d : List α) (j : Nat) => do
        let s ← (List.range N).foldlM (fun (s : α) (k : Nat) => do
          let x ← readAt self.data (i * N + k)
          let y ← readAt b.data (k * N + j)
          pure (s + x * y)) 0
        writeAt d (i * N + j) s) d) res.data
    pure { res with data := d }

/-- Static member `blockMult`: the same triple loop restricted to the rows
`start ≤ i < stop`, writing into the matrix `res` passed by reference. -/
def Matrix.blockMult [Zero α] [Add α] [Mul α] (a b : Matrix α) (start stop : Nat)
    (res : Matrix α) : Except Fault (Matrix α) :=
  let N := a.N
  do
    let d ← (List.range' start (stop - start)).foldlM (fun (d : List α) (i : Nat) =>
      (List.range N).foldlM (fun (d : List α) (j : Nat) => do
        let s ← (List.range N).foldlM (fun (s : α) (k : Nat) => do
          let x ← readAt a.data (i * N + k)
          let y ← readAt b.data (k * N + j)
          pure (s + x * y)) 0
        writeAt d (i * N + j) s) d) res.data
    pure { res with data := d }

/-- Member `fastMult`: `partSize = N / parts`, workers `0 .. parts - 2` get the rows
`[i * partSize, (i + 1) * partSize)`, the last worker gets `[(parts - 1) * partSize, N)`. -/
def Matrix.fastMult [Zero α] [Add α] [Mul α] (self b : Matrix α) (parts : Nat) :
    Except Fault (Matrix α) :=
  let N := self.N
  let res : Matrix α := Matrix.create N
  if parts = 0 then .error .divisionByZero
  else
    let partSize := N / parts
    do
      let res ← (List.range (parts - 1)).foldlM (fun (res : Matrix α) (i : Nat) =>
        Matrix.blockMult self b (i * partSize) ((i + 1) * partSize) res) res
      Matrix.blockMult self b ((parts - 1) * partSize) N res

/-- The operations of `double` that `operator==` uses. -/
class Tolerance (α : Type) where
  /-- The difference `x - y`. -/
  sub : α → α → α
  /-- The function `std::fabs`. -/
  fabs : α → α
  /-- The comparison `x > y`. -/
  gt : α → α → Bool
  /-- The constant `std::numeric_limits<double>::epsilon()`. -/
  epsilon : α

/-- The test `std::fabs(x - y) > std::numeric_limits<double>::epsilon()` of
`operator==`. -/
def exceeds [Tolerance α] (x y : α) : Bool :=
  Tolerance.gt (Tolerance.fabs (Tolerance.sub x y)) Tolerance.epsilon

/-- Loop of `operator==` over the remaining indices, with its early `return false`. -/
def eqLoop [Tolerance α] (a b : Matrix α) : List Nat → Except Fault Bool
  | [] => .ok true
  | i :: rest => do
    let x ← readAt a.data i
    let y ← readAt b.data i
    if exceeds x y then pure false else eqLoop a b rest

/-- Member `operator==`. -/
def Matrix.eq [Tolerance α] (self b : Matrix α) : Except Fault Bool :=
  eqLoop self b (List.range (self.N * self.N % sizeMod))

/-- Member `operator!=`, which is `!operator==(b)`. -/
def Matrix.ne [Tolerance α] (self b : Matrix α) : Except Fault Bool := do
  let r ← Matrix.eq self b
  pure (!r)

/-- The value `2⁻⁵²` of `std::numeric_limits<double>::epsilon()` in exact arithmetic. -/
def epsilon (α : Type) [LinearOrderedField α] : α := 1 / 2 ^ 52

/-- Exact arithmetic in a linear ordered field as an interpretation of the operations of
`operator==`: no rounding, no infinities and no NaN. -/
instance exactTolerance [LinearOrderedField α] : Tolerance α where
  sub x y := x - y
  fabs x := |x|
  gt x y := decide (x > y)
  epsilon := epsilon α

/-- Row range handed to worker `p` by `fastMult`, as a pair `(start, stop)`. -/
def workerRange (N parts p : Nat) : Nat × Nat :=
  if p < parts - 1 then (p * (N / parts), (p + 1) * (N / parts))
  else ((parts - 1) * (N / parts), N)

/-- Index `(i / m.N)*m.N + i % m.N` at which `operator<<` reads the `i`-th value. -/
def outputIndex (N i : Nat) : Nat := (i / N) * N + i % N

/-- Separator `((i+1) % m.N ? " " : "\n")` that `operator<<` writes after the `i`-th
value. -/
def separator (N i : Nat) : String := if (i + 1) % N ≠ 0 then " " else "\n"

/-- Friend `operator<<`.  The stream is the string written so far and `fmt` is the
rendering of a `double` under `std::fixed << std::setprecision(1)`. -/
def Matrix.output (fmt : α → String) (out : String) (m : Matrix α) : Except Fault String :=
  (List.range (m.N * m.N % sizeMod)).foldlM (fun (out : String) (i : Nat) => do
    let x ← readAt m.data (outputIndex m.N i)
    pure (out ++ fmt x ++ separator m.N i)) out

end Code

section Doubles

/-- Values of a `double` (IEEE 754 binary64).  A finite value is an integer multiple of
`2⁻¹⁰⁷⁴`, the smallest positive `double`: `fin k` stands for `k · 2⁻¹⁰⁷⁴`.  The two zeros
are one value `fin 0`; no operation used here tells them apart. -/
inductive Dbl where
  | fin (k : Int)
  | posInf
  | negInf
  | nan
  deriving DecidableEq, Repr

/-- Position of the leading bit of `n`, that is `⌊log₂ n⌋`, for `1 ≤ n < 2 ^ 8192`. -/
def log2Floor (n : Nat) : Nat :=
  [4096, 2048, 1024, 512, 256, 128, 64, 32, 16, 8, 4, 2, 1].foldl
    (fun k j => if 2 ^ (k + j) ≤ n then k + j else k) 0

/-- Integer nearest to `n / d`, the even one of the two when `n / d` lies half way. -/
def roundHalfEven (n d : Nat) : Nat :=
  if 2 * (n % d) < d then n / d
  else if d < 2 * (n % d) then n / d + 1
  else if (n / d) % 2 = 0 then n / d else n / d + 1

/-- Rounding of the magnitude `n · 2^(-1074 - s)` to 53 significant bits, or to a multiple
of `2⁻¹⁰⁷⁴` where that is coarser; the result is in units of `2⁻¹⁰⁷⁴`. -/
def roundUnits (n s : Nat) : Nat :=
  let shift := max (log2Floor n + 1 - 53) s
  roundHalfEven n (2 ^ shift) * 2 ^ (shift - s)

/-- Result of an operation whose exact value has the sign `negative` and the magnitude
`n · 2^(-1074 - s)`: the nearest `double`, an infinity from `2¹⁰²⁴` on. -/
def Dbl.round (negative : Bool) (n s : Nat) : Dbl :=
  if 2 ^ 2098 ≤ roundUnits n s then (if negative then .negInf else .posInf)
  else .fin (if negative then -(roundUnits n s : Int) else (roundUnits n s : Int))

/-- Addition of two `double`s. -/
def Dbl.add : Dbl → Dbl → Dbl
  | .fin x, .fin y => Dbl.round (decide (x + y < 0)) (x + y).natAbs 0
  | .fin _, .posInf => .posInf
  | .fin _, .negInf => .negInf
  | .posInf, .fin _ => .posInf
  | .posInf, .posInf => .posInf
  | .negInf, .fin _ => .negInf
  | .negInf, .negInf => .negInf
  | _, _ => .nan

/-- Negation of a `double`. -/
def Dbl.neg : Dbl → Dbl
  | .fin x => .fin (-x)
  | .posInf => .negInf
  | .negInf => .posInf
  | .nan => .nan

/-- Subtraction of two `double`s. -/
def Dbl.sub (x y : Dbl) : Dbl := Dbl.add x (Dbl.neg y)

/-- Multiplication of two `double`s. -/
def Dbl.mul : Dbl → Dbl → Dbl
  | .fin x, .fin y => Dbl.round (decide (x * y < 0)) (x * y).natAbs 1074
  | .nan, _ => .nan
  | _, .nan => .nan
  | .fin x, .posInf => if x = 0 then .nan else if 0 < x then .posInf else .negInf
  | .fin x, .negInf => if x = 0 then .nan else if 0 < x then .negInf else .posInf
  | .posInf, .fin y => if y = 0 then .nan else if 0 < y then .posInf else .negInf
  | .negInf, .fin y => if y = 0 then .nan else if 0 < y then .negInf else .posInf
  | .posInf, .posInf => .posInf
  | .posInf, .negInf => .negInf
  | .negInf, .posInf => .negInf
  | .negInf, .negInf => .posInf

/-- The function `std::fabs` on a `double`. -/
def Dbl.fabs : Dbl → Dbl
  | .fin x => .fin |x|
  | .posInf => .posInf
  | .negInf => .posInf
  | .nan => .nan

/-- The comparison `x > y` of two `double`s, false when one of them is NaN. -/
def Dbl.gt : Dbl → Dbl → Bool
  | .fin x, .fin y => decide (y < x)
  | .fin _, .negInf => true
  | .posInf, .fin _ => true
  | .posInf, .negInf => true
  | _, _ => false

/-- The comparison `x <= y` of two `double`s, false when one of them is NaN. -/
def Dbl.le : Dbl → Dbl → Bool
  | .fin x, .fin y => decide (x ≤ y)
  | .fin _, .posInf => true
  | .negInf, .fin _ => true
  | .negInf, .negInf => true
  | .negInf, .posInf => true
  | .posInf, .posInf => true
  | _, _ => false

/-- The value `std::numeric_limits<double>::epsilon()`, which is `2⁻⁵²`. -/
def Dbl.epsilon : Dbl := .fin ((2 ^ 1022 : Nat) : Int)

/-- Whether a value of `Dbl` is a `double`: a finite one has at most 53 significant bits
and a magnitude below `2¹⁰²⁴`. -/
def Dbl.isDouble : Dbl → Bool
  | .fin k => decide (roundUnits k.natAbs 0 = k.natAbs ∧ k.natAbs < 2 ^ 2098)
  | _ => true

instance : Zero Dbl := ⟨.fin 0⟩

instance : Add Dbl := ⟨Dbl.add⟩

instance : Mul Dbl := ⟨Dbl.mul⟩

/-- The operations of `operator==` on `double`s. -/
instance : Tolerance Dbl where
  sub := Dbl.sub
  fabs := Dbl.fabs
  gt := Dbl.gt
  epsilon := Dbl.epsilon

end Doubles

section Specification

variable {α : Type}

/-- Value the innermost loop accumulates for row `i` and column `j` with stride `N`:
the products `a[i*N + k] * b[k*N + j]` added left to right for `k = 0, …, N - 1`,
starting from `0`. -/
def cell [Zero α] [Add α] [Mul α] (a b : Matrix α) (N i j : Nat) : α :=
  (List.range N).foldl
    (fun s k => s + a.data.getD (i * N + k) 0 * b.data.getD (k * N + j) 0) 0

/-- Loop nest of `operator*` and `blockMult` over an explicit list of rows. -/
def rowsM [Zero α] [Add α] [Mul α] (a b : Matrix α) (N : Nat) (rows : List Nat)
    (d : List α) : Except Fault (List α) :=
  rows.foldlM (fun (d : List α) (i : Nat) =>
    (List.range N).foldlM (fun (d : List α) (j : Nat) => do
      let s ← (List.range N).foldlM (fun (s : α) (k : Nat) => do
        let x ← readAt a.data (i * N + k)
        let y ← readAt b.data (k * N + j)
        pure (s + x * y)) 0
      writeAt d (i * N + j) s) d) d

/-- Effect of the loop nest on the vector when no access fails: row by row, column by
column, position `i * N + j` receives `v i j`. -/
def fillRows (v : Nat → Nat → α) (N : Nat) (rows : List Nat) (d : List α) : List α :=
  rows.foldl (fun d i => (List.range N).foldl (fun d j => d.set (i * N + j) (v i j)) d) d

/-- Linear indices of the rows `start ≤ i < stop` of a matrix of dimension `N`: the
positions `i * N + j` with `j < N`. -/
def inRows (N start stop p : Nat) : Prop :=
  ∃ i j, start ≤ i ∧ i < stop ∧ j < N ∧ p = i * N + j

/-- Pieces of text of row `r` in the tabular rendering: the `N` formatted values of the
row with a single space between neighbours, then a newline. -/
def renderRow [Zero α] (fmt : α → String) (m : Matrix α) (r : Nat) : List String :=
  ((List.range m.N).map (fun c => fmt (m.data.getD (r * m.N + c) 0))).intersperse " "
    ++ ["\n"]

/-- Tabular rendering of a matrix: the text of its rows `0, …, N - 1`, one after the
other. -/
def render [Zero α] (fmt : α → String) (m : Matrix α) : String :=
  String.join ((List.range m.N).flatMap (renderRow fmt m))

end Specification

section AccessLemmas

variable {α : Type}

theorem readAt_of_lt [Zero α] (v : List α) (i : Nat) (h : i < v.length) :
    readAt v i = .ok (v.getD i 0) := by
  unfold readAt
  rw [List.getD_eq_getElem?_getD, List.get?_eq_getElem?, List.getElem?_eq_getElem h]
  rfl

theorem readAt_of_le (v : List α) (i : Nat) (h : v.length ≤ i) :
    readAt v i = .error .outOfRange := by
  unfold readAt
  rw [List.get?_eq_getElem?, List.getElem?_eq_none h]

theorem foldlM_ok {β ι : Type} (f : β → ι → Except Fault β) (g : β → ι → β)
    (P : β → Prop) (l : List ι)
    (h : ∀ s x, x ∈ l → P s → f s x = .ok (g s x) ∧ P (g s x)) (s : β) (hs : P s) :
    l.foldlM f s = .ok (l.foldl g s) ∧ P (l.foldl g s) := by
  induction l generalizing s with
  | nil => exact ⟨rfl, hs⟩
  | cons x xs ih =>
    obtain ⟨h1, h2⟩ := h s x (List.mem_cons_self x xs) hs
    have ih2 := ih (fun s y hy hP => h s y (List.mem_cons_of_mem x hy) hP) (g s x) h2
    rw [List.foldlM_cons, h1]
    exact ih2

theorem dotM_ok [Zero α] [Add α] [Mul α] (a b : Matrix α) (N i j : Nat)
    (ha : ∀ k, k < N → i * N + k < a.data.length)
    (hb : ∀ k, k < N → k * N + j < b.data.length) :
    (List.range N).foldlM (fun (s : α) (k : Nat) => do
        let x ← readAt a.data (i * N + k)
        let y ← readAt b.data (k * N + j)
        pure (s + x * y)) 0 = .ok (cell a b N i j) := by
  refine (foldlM_ok _ _ (fun _ => True) (List.range N) ?_ 0 trivial).1
  intro s k hk _
  have hk2 : k < N := List.mem_range.mp hk
  rw [readAt_of_lt _ _ (ha k hk2), readAt_of_lt _ _ (hb k hk2)]
  exact ⟨rfl, trivial⟩

end AccessLemmas

section LoopLemmas
variable {α : Type}

theorem idx_lt {N i j : Nat} (hi : i < N) (hj : j < N) : i * N + j < N * N := by
  have h1 : (i + 1) * N ≤ N * N := Nat.mul_le_mul_right N hi
  have h2 : (i + 1) * N = i * N + N := by ring
  omega

theorem length_fillRows (v : Nat → Nat → α) (N : Nat) (rows : List Nat) (d : List α) :
    (fillRows v N rows d).length = d.length := by
  unfold fillRows
  induction rows generalizing d with
  | nil => rfl
  | cons i rest ih =>
    rw [List.foldl_cons, ih]
    generalize List.range N = js
    induction js generalizing d with
    | nil => rfl
    | cons j js ihj => rw [List.foldl_cons, ihj, List.length_set]

theorem rowsM_ok [Zero α] [Add α] [Mul α] (a b : Matrix α) (N : Nat) (rows : List Nat)
    (d : List α) (hrows : ∀ i, i ∈ rows → i < N) (ha : N * N ≤ a.data.length)
    (hb : N * N ≤ b.data.length) (hd : N * N ≤ d.length) :
    rowsM a b N rows d = .ok (fillRows (cell a b N) N rows d) := by
  unfold rowsM fillRows
  refine (foldlM_ok _ _ (fun (e : List α) => N * N ≤ e.length) rows ?_ d hd).1
  intro e i hi he
  have hiN : i < N := hrows i hi
  refine foldlM_ok _ _ (fun (e : List α) => N * N ≤ e.length) (List.range N) ?_ e he
  intro e2 j hj he2
  have hjN : j < N := List.mem_range.mp hj
  have hij : i * N + j < N * N := idx_lt hiN hjN
  rw [dotM_ok a b N i j (fun k hk => lt_of_lt_of_le (idx_lt hiN hk) ha)
    (fun k hk => lt_of_lt_of_le (idx_lt hk hjN) hb)]
  refine ⟨?_, by show N * N ≤ (e2.set _ _).length; rw [List.length_set]; exact he2⟩
  show writeAt e2 (i * N + j) (cell a b N i j) = _
  unfold writeAt
  rw [if_pos (lt_of_lt_of_le hij he2)]

theorem mul_eq_rowsM [Zero α] [Add α] [Mul α] (a b : Matrix α) :
    Matrix.mul a b = (rowsM a b a.N (List.range a.N) (Matrix.create a.N).data).map
      (fun d => { N := a.N, data := d }) := rfl

theorem blockMult_eq_rowsM [Zero α] [Add α] [Mul α] (a b res : Matrix α) (start stop : Nat) :
    Matrix.blockMult a b start stop res =
      (rowsM a b a.N (List.range' start (stop - start)) res.data).map
        (fun d => { N := res.N, data := d }) := rfl

end LoopLemmas

section FillLemmas
variable {α : Type}

theorem getElem?_foldl_set (u : Nat → α) (base : Nat) (js : List Nat) (d : List α) (p : Nat) :
    (js.foldl (fun d j => d.set (base + j) (u j)) d)[p]? =
      if base ≤ p ∧ p - base ∈ js ∧ p < d.length then some (u (p - base)) else d[p]? := by
  induction js generalizing d with
  | nil => simp
  | cons j js ih =>
    rw [List.foldl_cons, ih, List.length_set, List.getElem?_set]
    by_cases h1 : base ≤ p ∧ p - base ∈ js ∧ p < d.length
    · rw [if_pos h1, if_pos ⟨h1.1, List.mem_cons_of_mem _ h1.2.1, h1.2.2⟩]
    · rw [if_neg h1]
      by_cases h2 : base + j = p
      · rw [if_pos h2]
        have hj : p - base = j := by omega
        by_cases h3 : p < d.length
        · rw [if_pos (by omega), if_pos ⟨by omega, by rw [hj]; exact List.mem_cons_self _ _, h3⟩, hj]
        · rw [if_neg (by omega), if_neg (fun h => h3 h.2.2)]
          exact (List.getElem?_eq_none (by omega)).symm
      · rw [if_neg h2]
        have h4 : ¬ (base ≤ p ∧ p - base ∈ j :: js ∧ p < d.length) := by
          rintro ⟨hb, hm, hl⟩
          rcases List.mem_cons.mp hm with h | h
          · exact h2 (by omega)
          · exact h1 ⟨hb, h, hl⟩
        rw [if_neg h4]

theorem row_iff {N p i : Nat} :
    (i * N ≤ p ∧ p - i * N ∈ List.range N) ↔ (0 < N ∧ p / N = i) := by
  rw [List.mem_range]
  constructor
  · rintro ⟨h1, h2⟩
    have hN : 0 < N := by omega
    refine ⟨hN, Nat.div_eq_of_lt_le h1 ?_⟩
    have : (i + 1) * N = i * N + N := by ring
    omega
  · rintro ⟨hN, rfl⟩
    have h1 := Nat.div_add_mod p N
    have h2 := Nat.mod_lt p hN
    rw [Nat.mul_comm] at h1
    omega

theorem getElem?_fillRows (v : Nat → Nat → α) (N : Nat) (rows : List Nat) (d : List α)
    (p : Nat) :
    (fillRows v N rows d)[p]? =
      if 0 < N ∧ p / N ∈ rows ∧ p < d.length then some (v (p / N) (p % N)) else d[p]? := by
  unfold fillRows
  induction rows generalizing d with
  | nil => simp
  | cons i rest ih =>
    rw [List.foldl_cons, ih, getElem?_foldl_set (v i) (i * N) (List.range N) d p]
    have hlen : ((List.range N).foldl (fun d j => d.set (i * N + j) (v i j)) d).length
        = d.length := length_fillRows v N [i] d
    rw [hlen]
    by_cases h1 : 0 < N ∧ p / N ∈ rest ∧ p < d.length
    · rw [if_pos h1, if_pos ⟨h1.1, List.mem_cons_of_mem _ h1.2.1, h1.2.2⟩]
    · rw [if_neg h1]
      by_cases h2 : i * N ≤ p ∧ p - i * N ∈ List.range N ∧ p < d.length
      · have h3 := row_iff.mp ⟨h2.1, h2.2.1⟩
        have h4 : p - i * N = p % N := by
          have h5 := Nat.div_add_mod p N
          rw [h3.2, Nat.mul_comm] at h5
          omega
        rw [if_pos h2, if_pos ⟨h3.1, by rw [h3.2]; exact List.mem_cons_self _ _, h2.2.2⟩,
          h3.2, h4]
      · rw [if_neg h2, if_neg]
        rintro ⟨hN, hm, hl⟩
        rcases List.mem_cons.mp hm with h | h
        · have h3 := row_iff.mpr ⟨hN, h⟩
          exact h2 ⟨h3.1, h3.2, hl⟩
        · exact h1 ⟨hN, h, hl⟩

theorem getElem?_fillRows_cell (v : Nat → Nat → α) (N : Nat) (rows : List Nat) (d : List α)
    (i j : Nat) (hi : i ∈ rows) (hj : j < N) (hd : i * N + j < d.length) :
    (fillRows v N rows d)[i * N + j]? = some (v i j) := by
  have hN : 0 < N := by omega
  have h1 : (i * N + j) / N = i :=
    Nat.div_eq_of_lt_le (by omega) (by have : (i + 1) * N = i * N + N := by ring
                                       omega)
  have h2 : (i * N + j) % N = j := by
    rw [Nat.add_comm, Nat.add_mul_mod_self_right, Nat.mod_eq_of_lt hj]
  rw [getElem?_fillRows, if_pos ⟨hN, by rw [h1]; exact hi, hd⟩, h1, h2]

theorem fillRows_append (v : Nat → Nat → α) (N : Nat) (r1 r2 : List Nat) (d : List α) :
    fillRows v N (r1 ++ r2) d = fillRows v N r2 (fillRows v N r1 d) := by
  unfold fillRows
  rw [List.foldl_append]

end FillLemmas

section ProductLemmas
variable {α : Type}

theorem workers_fold (v : Nat → Nat → α) (N ps : Nat) (res : Matrix α) (n : Nat) :
    (List.range n).foldl (fun (r : Matrix α) (i : Nat) =>
        Matrix.mk r.N (fillRows v N (List.range' (i * ps) ((i + 1) * ps - i * ps)) r.data)) res
      = Matrix.mk res.N (fillRows v N (List.range' 0 (n * ps)) res.data) := by
  induction n with
  | zero => simp [fillRows]
  | succ n ih =>
    rw [List.range_succ, List.foldl_append, ih]
    simp only [List.foldl_cons, List.foldl_nil]
    rw [← fillRows_append]
    have h1 : (n + 1) * ps - n * ps = ps := by rw [Nat.succ_mul]; omega
    have h2 : (n + 1) * ps = ps + n * ps := by rw [Nat.succ_mul]; omega
    rw [h1, h2, ← List.range'_append_1, Nat.zero_add]

theorem one_fits : 1 * 1 < sizeMod := by decide

theorem four_fits : 2 * 2 < sizeMod := by decide

theorem length_create [Zero α] (N : Nat) :
    (Matrix.create N : Matrix α).data.length = N * N % sizeMod := by
  simp [Matrix.create]

theorem create_data [Zero α] (N : Nat) (h : N * N < sizeMod) :
    (Matrix.create N : Matrix α).data = List.replicate (N * N) 0 := by
  unfold Matrix.create
  rw [Nat.mod_eq_of_lt h]

theorem create_WF [Zero α] (N : Nat) (h : N * N < sizeMod) : (Matrix.create N : Matrix α).WF :=
  ⟨by rw [length_create, Nat.mod_eq_of_lt h]; rfl, h⟩

variable [Zero α] [Add α] [Mul α]

theorem mul_ok (a b : Matrix α) (hfit : a.N * a.N < sizeMod) (ha : a.N * a.N ≤ a.data.length)
    (hb : a.N * a.N ≤ b.data.length) :
    Matrix.mul a b = .ok (Matrix.mk a.N
      (fillRows (cell a b a.N) a.N (List.range a.N) (List.replicate (a.N * a.N) 0))) := by
  rw [mul_eq_rowsM, create_data _ hfit,
    rowsM_ok a b a.N (List.range a.N) _ (fun i hi => List.mem_range.mp hi) ha hb
      (by simp)]
  rfl

theorem blockMult_ok (a b res : Matrix α) (start stop : Nat) (hstop : stop ≤ a.N)
    (ha : a.N * a.N ≤ a.data.length) (hb : a.N * a.N ≤ b.data.length)
    (hres : a.N * a.N ≤ res.data.length) :
    Matrix.blockMult a b start stop res = .ok (Matrix.mk res.N
      (fillRows (cell a b a.N) a.N (List.range' start (stop - start)) res.data)) := by
  rw [blockMult_eq_rowsM, rowsM_ok a b a.N _ _ ?_ ha hb hres]
  · rfl
  · intro i hi
    have := List.mem_range'_1.mp hi
    omega

theorem fastMult_eq_mul (a b : Matrix α) (parts : Nat) (hparts : parts ≠ 0)
    (hfit : a.N * a.N < sizeMod) (ha : a.N * a.N ≤ a.data.length)
    (hb : a.N * a.N ≤ b.data.length) :
    Matrix.fastMult a b parts = Matrix.mul a b := by
  have hps : ∀ i, i < parts → i * (a.N / parts) ≤ a.N := by
    intro i hi
    calc i * (a.N / parts) ≤ parts * (a.N / parts) := Nat.mul_le_mul_right _ (Nat.le_of_lt hi)
      _ ≤ a.N := Nat.mul_div_le a.N parts
  unfold Matrix.fastMult
  simp only [if_neg hparts]
  obtain ⟨h1, h2⟩ := foldlM_ok
    (fun (res : Matrix α) (i : Nat) =>
      Matrix.blockMult a b (i * (a.N / parts)) ((i + 1) * (a.N / parts)) res)
    (fun (r : Matrix α) (i : Nat) =>
      Matrix.mk r.N (fillRows (cell a b a.N) a.N
        (List.range' (i * (a.N / parts)) ((i + 1) * (a.N / parts) - i * (a.N / parts))) r.data))
    (fun r => a.N * a.N ≤ r.data.length) (List.range (parts - 1))
    (by
      intro r i hi hr
      have hi2 : i < parts - 1 := List.mem_range.mp hi
      refine ⟨blockMult_ok a b r _ _ (hps (i + 1) (by omega)) ha hb hr, ?_⟩
      show a.N * a.N ≤ (fillRows _ _ _ _).length
      rw [length_fillRows]
      exact hr)
    (Matrix.create a.N) (by
      show a.N * a.N ≤ (Matrix.create a.N : Matrix α).data.length
      rw [create_data _ hfit]
      simp)
  rw [h1]
  show Matrix.blockMult a b _ _ _ = _
  rw [blockMult_ok a b _ _ _ (le_refl _) ha hb h2, workers_fold, ← fillRows_append,
    mul_ok a b hfit ha hb]
  have h3 : (parts - 1) * (a.N / parts) ≤ a.N := hps (parts - 1) (by omega)
  have h4 : List.range' 0 ((parts - 1) * (a.N / parts)) ++
      List.range' ((parts - 1) * (a.N / parts)) (a.N - (parts - 1) * (a.N / parts))
      = List.range a.N := by
    have := List.range'_append_1 0 ((parts - 1) * (a.N / parts))
      (a.N - (parts - 1) * (a.N / parts))
    rw [Nat.zero_add] at this
    rw [this, List.range_eq_range']
    congr 1
    omega
  rw [h4]
  show Except.ok (Matrix.mk a.N (fillRows _ _ _ (Matrix.create a.N).data)) = _
  rw [create_data _ hfit]

end ProductLemmas

section EqualityLemmas
variable {α : Type}

theorem eqLoop_cons [Tolerance α] (a b : Matrix α) (i : Nat) (rest : List Nat) :
    eqLoop a b (i :: rest) = (do
      let x ← readAt a.data i
      let y ← readAt b.data i
      if exceeds x y then pure false else eqLoop a b rest) := rfl

theorem eqLoop_ok_gen [Tolerance α] [Zero α] (a b : Matrix α) (l : List Nat)
    (ha : ∀ i, i ∈ l → i < a.data.length) (hb : ∀ i, i ∈ l → i < b.data.length) :
    eqLoop a b l = .ok (decide (∀ i, i ∈ l →
      exceeds (a.data.getD i 0) (b.data.getD i 0) = false)) := by
  induction l with
  | nil => simp [eqLoop]
  | cons i rest ih =>
    have ih2 := ih (fun k hk => ha k (List.mem_cons_of_mem _ hk))
      (fun k hk => hb k (List.mem_cons_of_mem _ hk))
    rw [eqLoop_cons, readAt_of_lt _ _ (ha i (List.mem_cons_self _ _)),
      readAt_of_lt _ _ (hb i (List.mem_cons_self _ _))]
    show (if exceeds (a.data.getD i 0) (b.data.getD i 0) = true then pure false
      else eqLoop a b rest) = _
    by_cases h : exceeds (a.data.getD i 0) (b.data.getD i 0) = true
    · rw [if_pos h]
      have : ¬ (∀ k, k ∈ i :: rest →
          exceeds (a.data.getD k 0) (b.data.getD k 0) = false) := by
        intro hall
        have := hall i (List.mem_cons_self _ _)
        rw [h] at this
        cases this
      rw [decide_eq_false this]
      rfl
    · rw [if_neg h, ih2]
      congr 1
      rw [decide_eq_decide]
      constructor
      · intro hall k hk
        rcases List.mem_cons.mp hk with rfl | hk2
        · exact Bool.eq_false_iff.mpr h
        · exact hall k hk2
      · intro hall k hk
        exact hall k (List.mem_cons_of_mem _ hk)

theorem eq_ok_gen [Tolerance α] [Zero α] (a b : Matrix α) (hfit : a.N * a.N < sizeMod)
    (ha : a.N * a.N ≤ a.data.length) (hb : a.N * a.N ≤ b.data.length) :
    Matrix.eq a b = .ok (decide (∀ i, i < a.N * a.N →
      exceeds (a.data.getD i 0) (b.data.getD i 0) = false)) := by
  unfold Matrix.eq
  rw [Nat.mod_eq_of_lt hfit,
    eqLoop_ok_gen a b _ (fun i hi => lt_of_lt_of_le (List.mem_range.mp hi) ha)
      (fun i hi => lt_of_lt_of_le (List.mem_range.mp hi) hb)]
  congr 1
  rw [decide_eq_decide]
  simp only [List.mem_range]

theorem ne_of_eq [Tolerance α] (a b : Matrix α) (r : Bool) (h : Matrix.eq a b = .ok r) :
    Matrix.ne a b = .ok (!r) := by
  unfold Matrix.ne
  rw [h]
  rfl

theorem exceeds_exact [LinearOrderedField α] (x y : α) :
    exceeds x y = false ↔ |x - y| ≤ epsilon α := by
  show decide (|x - y| > epsilon α) = false ↔ _
  rw [decide_eq_false_iff_not, not_lt]

theorem eqLoop_ok [LinearOrderedField α] (a b : Matrix α) (l : List Nat)
    (ha : ∀ i, i ∈ l → i < a.data.length) (hb : ∀ i, i ∈ l → i < b.data.length) :
    eqLoop a b l = .ok (decide (∀ i, i ∈ l → |a.data.getD i 0 - b.data.getD i 0| ≤ epsilon α)) := by
  rw [eqLoop_ok_gen a b l ha hb]
  congr 1
  rw [decide_eq_decide]
  simp only [exceeds_exact]

theorem eq_ok [LinearOrderedField α] (a b : Matrix α) (hfit : a.N * a.N < sizeMod)
    (ha : a.N * a.N ≤ a.data.length) (hb : a.N * a.N ≤ b.data.length) :
    Matrix.eq a b = .ok (decide (∀ i, i < a.N * a.N →
      |a.data.getD i 0 - b.data.getD i 0| ≤ epsilon α)) := by
  rw [eq_ok_gen a b hfit ha hb]
  congr 1
  rw [decide_eq_decide]
  simp only [exceeds_exact]

theorem epsilon_pos [LinearOrderedField α] : 0 < epsilon α := by
  unfold epsilon
  positivity

theorem eq_of_data_eq [LinearOrderedField α] (a b : Matrix α) (hfit : a.N * a.N < sizeMod)
    (ha : a.N * a.N ≤ a.data.length) (hab : b.data = a.data) : Matrix.eq a b = .ok true := by
  rw [eq_ok a b hfit ha (by rw [hab]; exact ha), hab]
  congr 1
  rw [decide_eq_true_iff]
  intro i _
  rw [sub_self, abs_zero]
  exact le_of_lt epsilon_pos

end EqualityLemmas

section RangeLemmas
variable {α : Type}

theorem mul_entries [Zero α] [Add α] [Mul α] (a b : Matrix α) (ha : a.WF)
    (hb : a.N * a.N ≤ b.data.length) :
    ∃ c : Matrix α, Matrix.mul a b = .ok c ∧ c.N = a.N ∧ c.data.length = a.N * a.N ∧
      ∀ i j, i < a.N → j < a.N → c.data.get? (i * a.N + j) = some (cell a b a.N i j) := by
  refine ⟨_, mul_ok a b ha.2 (le_of_eq ha.1.symm) hb, rfl, ?_, ?_⟩
  · show (fillRows _ _ _ _).length = _
    rw [length_fillRows, List.length_replicate]
  · intro i j hi hj
    show (fillRows _ _ _ _).get? _ = _
    rw [List.get?_eq_getElem?]
    exact getElem?_fillRows_cell _ _ _ _ i j (List.mem_range.mpr hi) hj
      (by rw [List.length_replicate]; exact idx_lt hi hj)

end RangeLemmas

section FaultLemmas
variable {α : Type}

theorem foldlM_error {β ι : Type} (f : β → ι → Except Fault β) (l : List ι)
    (h : ∀ s x e, f s x = .error e → e = .outOfRange) (s : β) (e : Fault)
    (he : l.foldlM f s = .error e) : e = .outOfRange := by
  induction l generalizing s with
  | nil => cases he
  | cons x xs ih =>
    rw [List.foldlM_cons] at he
    cases hf : f s x with
    | error e2 =>
      rw [hf] at he
      cases he
      exact h s x e hf
    | ok s2 =>
      rw [hf] at he
      exact ih s2 he

theorem readAt_error (v : List α) (i : Nat) (e : Fault) (h : readAt v i = .error e) :
    e = .outOfRange := by
  unfold readAt at h
  cases hv : v.get? i with
  | none =>
    rw [hv] at h
    cases h
    rfl
  | some x =>
    rw [hv] at h
    cases h

theorem writeAt_error (v : List α) (i : Nat) (x : α) (e : Fault)
    (h : writeAt v i x = .error e) : e = .outOfRange := by
  unfold writeAt at h
  by_cases hi : i < v.length
  · rw [if_pos hi] at h
    cases h
  · rw [if_neg hi] at h
    cases h
    rfl

theorem rowsM_error [Zero α] [Add α] [Mul α] (a b : Matrix α) (N : Nat) (rows : List Nat)
    (d : List α) (e : Fault) (h : rowsM a b N rows d = .error e) : e = .outOfRange := by
  unfold rowsM at h
  refine foldlM_error _ rows ?_ d e h
  intro d1 i e1 h1
  refine foldlM_error _ (List.range N) ?_ d1 e1 h1
  intro d2 j e2 h2
  cases hs : (List.range N).foldlM (fun (s : α) (k : Nat) => do
        let x ← readAt a.data (i * N + k)
        let y ← readAt b.data (k * N + j)
        pure (s + x * y)) 0 with
  | error e3 =>
    rw [hs] at h2
    cases h2
    refine foldlM_error _ (List.range N) ?_ 0 e2 hs
    intro s k e4 h4
    cases hx : readAt a.data (i * N + k) with
    | error e5 =>
      rw [hx] at h4
      cases h4
      exact readAt_error _ _ _ hx
    | ok x =>
      rw [hx] at h4
      cases hy : readAt b.data (k * N + j) with
      | error e6 =>
        rw [hy] at h4
        cases h4
        exact readAt_error _ _ _ hy
      | ok y =>
        rw [hy] at h4
        cases h4
  | ok s =>
    rw [hs] at h2
    exact writeAt_error _ _ _ _ h2

theorem mul_error [Zero α] [Add α] [Mul α] (a b : Matrix α) (e : Fault)
    (h : Matrix.mul a b = .error e) : e = .outOfRange := by
  rw [mul_eq_rowsM] at h
  cases hr : rowsM a b a.N (List.range a.N) (Matrix.create a.N).data with
  | error e2 =>
    rw [hr] at h
    cases h
    exact rowsM_error _ _ _ _ _ _ hr
  | ok d =>
    rw [hr] at h
    cases h

end FaultLemmas

section IdentityLemmas
variable {α : Type}

theorem foldlM_cons_ok {β ι : Type} (f : β → ι → Except Fault β) (x : ι) (xs : List ι)
    (s r : β) (h : (x :: xs).foldlM f s = .ok r) : ∃ s2, f s x = .ok s2 := by
  rw [List.foldlM_cons] at h
  cases hf : f s x with
  | error e =>
    rw [hf] at h
    cases h
  | ok s2 => exact ⟨s2, rfl⟩

theorem foldlM_concat_ok {β ι : Type} (f : β → ι → Except Fault β) (x : ι) (xs : List ι)
    (s r : β) (h : (xs ++ [x]).foldlM f s = .ok r) : ∃ s2, f s2 x = .ok r := by
  rw [List.foldlM_append] at h
  cases hf : xs.foldlM f s with
  | error e =>
    rw [hf] at h
    cases h
  | ok s2 =>
    rw [hf] at h
    have h2 : [x].foldlM f s2 = .ok r := h
    rw [List.foldlM_cons] at h2
    cases hx : f s2 x with
    | error e =>
      rw [hx] at h2
      cases h2
    | ok r2 =>
      rw [hx] at h2
      have h3 : (Except.ok r2 : Except Fault β) = .ok r := h2
      cases h3
      exact ⟨s2, hx⟩

theorem dotM_fault [Zero α] [Add α] [Mul α] (a b : Matrix α) (N i j : Nat) (s : α)
    (hb : b.data.length ≤ (N - 1) * N) (hN : 0 < N) :
    (List.range N).foldlM (fun (s : α) (k : Nat) => do
        let x ← readAt a.data (i * N + k)
        let y ← readAt b.data (k * N + j)
        pure (s + x * y)) 0 ≠ .ok s := by
  intro h
  obtain ⟨n, hn⟩ : ∃ n, N = n + 1 := ⟨N - 1, by omega⟩
  have hr : List.range N = List.range n ++ [n] := by rw [hn, List.range_succ]
  rw [hr] at h
  obtain ⟨s2, h2⟩ := foldlM_concat_ok _ _ _ _ _ h
  have h3 : readAt b.data (n * N + j) = .error .outOfRange := by
    apply readAt_of_le
    have : N - 1 = n := by omega
    rw [this] at hb
    omega
  rw [h3] at h2
  cases hx : readAt a.data (i * N + n) with
  | error e =>
    rw [hx] at h2
    cases h2
  | ok x =>
    rw [hx] at h2
    cases h2

/-- When the right operand is smaller than the left one, `operator*` reads `b.data` outside
the vector while computing the first element. -/
theorem mul_fault_of_lt [Zero α] [Add α] [Mul α] (a b : Matrix α) (hb : b.WF) (hN : b.N < a.N) :
    Matrix.mul a b = .error .outOfRange := by
  cases h : Matrix.mul a b with
  | error e => rw [mul_error a b e h]
  | ok c =>
    exfalso
    obtain ⟨n, hn⟩ : ∃ n, a.N = n + 1 := ⟨a.N - 1, by omega⟩
    rw [mul_eq_rowsM] at h
    cases hr : rowsM a b a.N (List.range a.N) (Matrix.create a.N).data with
    | error e =>
      rw [hr] at h
      cases h
    | ok d =>
      unfold rowsM at hr
      have hrange : List.range a.N = 0 :: List.range' 1 n := by
        rw [List.range_eq_range', hn]
        rfl
      rw [hrange] at hr
      obtain ⟨d1, h1⟩ := foldlM_cons_ok _ _ _ _ _ hr
      obtain ⟨d2, h2⟩ := foldlM_cons_ok _ _ _ _ _ h1
      rw [← hrange] at h2
      have hlen : b.data.length ≤ (a.N - 1) * a.N := by
        rw [hb.1]
        exact Nat.mul_le_mul (by omega) (by omega)
      cases hs : (List.range a.N).foldlM (fun (s : α) (k : Nat) => do
          let x ← readAt a.data (0 * a.N + k)
          let y ← readAt b.data (k * a.N + 0)
          pure (s + x * y)) 0 with
      | error e =>
        rw [hs] at h2
        cases h2
      | ok s => exact dotM_fault a b a.N 0 0 s hlen (by omega) hs

theorem cell_identity [Semiring α] (a I : Matrix α) (N i j : Nat) (hj : j < N)
    (hI : ∀ k, k < N → I.data.getD (k * N + j) 0 = if k = j then 1 else 0) :
    cell a I N i j = a.data.getD (i * N + j) 0 := by
  have key : ∀ n, n ≤ N → (List.range n).foldl
      (fun s k => s + a.data.getD (i * N + k) 0 * I.data.getD (k * N + j) 0) 0
      = if j < n then a.data.getD (i * N + j) 0 else 0 := by
    intro n
    induction n with
    | zero => intro _; rfl
    | succ n ih =>
      intro hn
      rw [List.range_succ, List.foldl_append, ih (by omega), List.foldl_cons, List.foldl_nil,
        hI n (by omega)]
      by_cases h1 : n = j
      · subst h1
        rw [if_neg (lt_irrefl _), if_pos rfl, if_pos (Nat.lt_succ_self _), zero_add, mul_one]
      · rw [if_neg h1, mul_zero, add_zero]
        by_cases h2 : j < n
        · rw [if_pos h2, if_pos (by omega)]
        · rw [if_neg h2, if_neg (by omega)]
  unfold cell
  rw [key N (le_refl _), if_pos hj]

theorem mul_identity [Semiring α] (a I : Matrix α) (ha : a.WF) (hI : I.WF) (hN : I.N = a.N)
    (hid : ∀ i, i < a.N → ∀ j, j < a.N →
      I.data.get? (i * a.N + j) = some (if i = j then 1 else 0)) :
    Matrix.mul a I = .ok a := by
  rw [mul_ok a I ha.2 (le_of_eq ha.1.symm) (by rw [hI.1, hN])]
  congr 1
  obtain ⟨N, data⟩ := a
  have ha := ha.1
  simp only [] at ha hid ⊢
  congr 1
  apply List.ext_getElem?
  intro p
  rw [getElem?_fillRows, List.length_replicate]
  by_cases hp : p < N * N
  · have hN0 : 0 < N := by
      rcases Nat.eq_zero_or_pos N with h | h
      · subst h
        simp at hp
      · exact h
    have hq : p / N < N := (Nat.div_lt_iff_lt_mul hN0).mpr hp
    have hr : p % N < N := Nat.mod_lt p hN0
    rw [if_pos ⟨hN0, List.mem_range.mpr hq, hp⟩]
    rw [cell_identity _ I N (p / N) (p % N) hr]
    · have h1 : p / N * N + p % N = p := by
        have := Nat.div_add_mod p N
        rw [Nat.mul_comm] at this
        exact this
      show some (data.getD (p / N * N + p % N) 0) = data[p]?
      rw [h1, List.getD_eq_getElem?_getD, List.getElem?_eq_getElem (by rw [ha]; exact hp)]
      rfl
    · intro k hk
      have := hid k hk (p % N) hr
      rw [List.get?_eq_getElem?] at this
      rw [List.getD_eq_getElem?_getD, this]
      rfl
  · rw [if_neg (fun h => hp h.2.2), List.getElem?_eq_none (by simp; omega),
      List.getElem?_eq_none (by rw [ha]; omega)]

end IdentityLemmas

section ZeroLemmas
variable {α : Type}

theorem getD_create [Zero α] (N i : Nat) : (Matrix.create N : Matrix α).data.getD i 0 = 0 := by
  unfold Matrix.create
  rw [List.getD_eq_getElem?_getD, List.getElem?_replicate]
  by_cases h : i < N * N % sizeMod
  · rw [if_pos h]
    rfl
  · rw [if_neg h]
    rfl

theorem foldl_add_zero [Zero α] [Add α] (l : List Nat) (f : Nat → α)
    (hf : ∀ k, k ∈ l → (0 : α) + f k = 0) :
    l.foldl (fun s k => s + f k) 0 = 0 := by
  induction l with
  | nil => rfl
  | cons k ks ih =>
    rw [List.foldl_cons, hf k (List.mem_cons_self _ _)]
    exact ih (fun k2 hk2 => hf k2 (List.mem_cons_of_mem _ hk2))

theorem getD_mem [Zero α] (l : List α) (i : Nat) (h : i < l.length) : l.getD i 0 ∈ l := by
  rw [List.getD_eq_getElem?_getD, List.getElem?_eq_getElem h]
  exact List.getElem_mem h

theorem cell_zero_right [Zero α] [Add α] [Mul α] (a : Matrix α) (N M i j : Nat)
    (ha : ∀ k, k < N → i * N + k < a.data.length)
    (h0 : ∀ x, x ∈ a.data → (0 : α) + x * 0 = 0) :
    cell a (Matrix.create M) N i j = 0 := by
  unfold cell
  refine foldl_add_zero _ (fun k => a.data.getD (i * N + k) 0 *
    (Matrix.create M : Matrix α).data.getD (k * N + j) 0) ?_
  intro k hk
  beta_reduce
  rw [getD_create]
  exact h0 _ (getD_mem _ _ (ha k (List.mem_range.mp hk)))

theorem cell_zero_left [Zero α] [Add α] [Mul α] (a : Matrix α) (N M i j : Nat)
    (ha : ∀ k, k < N → k * N + j < a.data.length)
    (h0 : ∀ x, x ∈ a.data → (0 : α) + 0 * x = 0) :
    cell (Matrix.create M) a N i j = 0 := by
  unfold cell
  refine foldl_add_zero _ (fun k => (Matrix.create M : Matrix α).data.getD (i * N + k) 0 *
    a.data.getD (k * N + j) 0) ?_
  intro k hk
  beta_reduce
  rw [getD_create]
  exact h0 _ (getD_mem _ _ (ha k (List.mem_range.mp hk)))

theorem fillRows_zero [Zero α] (v : Nat → Nat → α) (N : Nat) (rows : List Nat)
    (hv : ∀ i j, i ∈ rows → j < N → v i j = 0) (n : Nat) :
    fillRows v N rows (List.replicate n 0) = List.replicate n 0 := by
  apply List.ext_getElem?
  intro p
  rw [getElem?_fillRows, List.length_replicate, List.getElem?_replicate]
  by_cases h : 0 < N ∧ p / N ∈ rows ∧ p < n
  · rw [if_pos h, if_pos h.2.2, hv _ _ h.2.1 (Nat.mod_lt p h.1)]
  · rw [if_neg h]

/-- Zero products: when every element `x` of `a` has `0 + x * 0 = 0` and `0 + 0 * x = 0`,
both products of `a` and the zero matrix of its dimension are that zero matrix. -/
theorem mul_zero_ok [Zero α] [Add α] [Mul α] (a : Matrix α) (ha : a.WF)
    (h0 : ∀ x, x ∈ a.data → (0 : α) + x * 0 = 0 ∧ (0 : α) + 0 * x = 0) :
    Matrix.mul a (Matrix.create a.N) = .ok (Matrix.create a.N) ∧
    Matrix.mul (Matrix.create a.N) a = .ok (Matrix.create a.N) := by
  have hz : a.N * a.N ≤ (Matrix.create a.N : Matrix α).data.length := by
    rw [length_create, Nat.mod_eq_of_lt ha.2]
  have h1 := mul_ok a (Matrix.create a.N) ha.2 (le_of_eq ha.1.symm) hz
  have h2 := mul_ok (Matrix.create a.N) a ha.2 hz (le_of_eq ha.1.symm)
  rw [fillRows_zero _ _ _ (fun i j hi hj => cell_zero_right a a.N a.N i j
    (fun k hk => by rw [ha.1]; exact idx_lt (List.mem_range.mp hi) hk)
    (fun x hx => (h0 x hx).1))] at h1
  have h3 : (Matrix.create a.N : Matrix α).N = a.N := rfl
  rw [h3, fillRows_zero _ _ _ (fun i j _ hj => cell_zero_left a a.N a.N i j
    (fun k hk => by rw [ha.1]; exact idx_lt hk hj)
    (fun x hx => (h0 x hx).2))] at h2
  have h4 : (Matrix.create a.N : Matrix α) = Matrix.mk a.N (List.replicate (a.N * a.N) 0) := by
    unfold Matrix.create
    rw [Nat.mod_eq_of_lt ha.2]
  rw [h4]
  rw [h4] at h1 h2
  exact ⟨h1, h2⟩

end ZeroLemmas

section CompareLemmas
variable {α : Type}

theorem eqLoop_error [Tolerance α] (a b : Matrix α) (l : List Nat) (e : Fault)
    (h : eqLoop a b l = .error e) : e = .outOfRange := by
  induction l with
  | nil =>
    unfold eqLoop at h
    cases h
  | cons i rest ih =>
    rw [eqLoop_cons] at h
    cases hx : readAt a.data i with
    | error e2 =>
      rw [hx] at h
      cases h
      exact readAt_error _ _ _ hx
    | ok x =>
      rw [hx] at h
      cases hy : readAt b.data i with
      | error e3 =>
        rw [hy] at h
        cases h
        exact readAt_error _ _ _ hy
      | ok y =>
        rw [hy] at h
        have h2 : (if exceeds x y = true then pure false else eqLoop a b rest)
            = Except.error e := h
        by_cases hc : exceeds x y = true
        · rw [if_pos hc] at h2
          cases h2
        · rw [if_neg hc] at h2
          exact ih h2

theorem eqLoop_append [Tolerance α] (a b : Matrix α) (l1 l2 : List Nat) :
    eqLoop a b (l1 ++ l2) = (eqLoop a b l1).bind
      (fun r => if r = true then eqLoop a b l2 else .ok false) := by
  induction l1 with
  | nil => rfl
  | cons i rest ih =>
    rw [List.cons_append, eqLoop_cons, eqLoop_cons]
    cases hx : readAt a.data i with
    | error e2 => rfl
    | ok x =>
      cases hy : readAt b.data i with
      | error e3 => rfl
      | ok y =>
        show (if exceeds x y = true then pure false else eqLoop a b (rest ++ l2))
          = (if exceeds x y = true then pure false else eqLoop a b rest).bind _
        by_cases hc : exceeds x y = true
        · rw [if_pos hc, if_pos hc]
          rfl
        · rw [if_neg hc, if_neg hc, ih]

/-- When the right operand is smaller than the left one, `operator==` returns false if one
of the first `b.N * b.N` pairs of elements fails the tolerance test, and otherwise reads
`b.data` outside the vector. -/
theorem eq_of_lt [Tolerance α] [Zero α] (a b : Matrix α) (ha : a.WF) (hb : b.WF)
    (hN : b.N < a.N) :
    Matrix.eq a b =
      if ∀ i, i < b.N * b.N → exceeds (a.data.getD i 0) (b.data.getD i 0) = false
      then .error .outOfRange else .ok false := by
  have hlt : b.N * b.N < a.N * a.N := Nat.mul_lt_mul_of_lt_of_le hN (le_of_lt hN) (by omega)
  obtain ⟨n, hn⟩ : ∃ n, a.N * a.N - b.N * b.N = n + 1 := ⟨a.N * a.N - b.N * b.N - 1, by omega⟩
  have hsplit : List.range (a.N * a.N)
      = List.range (b.N * b.N) ++ (b.N * b.N :: List.range' (b.N * b.N + 1) n) := by
    have h1 := List.range'_append_1 0 (b.N * b.N) (n + 1)
    rw [Nat.zero_add] at h1
    rw [List.range_eq_range', List.range_eq_range']
    show _ = List.range' 0 (b.N * b.N) ++ List.range' (b.N * b.N) (n + 1)
    rw [h1]
    congr 1
    omega
  unfold Matrix.eq
  rw [Nat.mod_eq_of_lt ha.2, hsplit, eqLoop_append, eqLoop_ok_gen a b (List.range (b.N * b.N))
    (fun i hi => by rw [ha.1]; exact lt_trans (List.mem_range.mp hi) hlt)
    (fun i hi => by rw [hb.1]; exact List.mem_range.mp hi)]
  simp only [List.mem_range]
  by_cases hall : ∀ i, i < b.N * b.N → exceeds (a.data.getD i 0) (b.data.getD i 0) = false
  · rw [if_pos hall, decide_eq_true hall]
    show eqLoop a b (b.N * b.N :: List.range' (b.N * b.N + 1) n) = _
    rw [eqLoop_cons]
    rw [readAt_of_lt a.data _ (by rw [ha.1]; exact hlt),
      readAt_of_le b.data _ (by rw [hb.1])]
    rfl
  · rw [if_neg hall, decide_eq_false hall]
    rfl

end CompareLemmas

section SizeLemmas
variable {α : Type}

theorem foldlM_preserves {β ι : Type} (f : β → ι → Except Fault β) (P : β → Prop)
    (l : List ι) (h : ∀ s x r, f s x = .ok r → P s → P r) (s r : β) (hs : P s)
    (hr : l.foldlM f s = .ok r) : P r := by
  induction l generalizing s with
  | nil =>
    cases hr
    exact hs
  | cons x xs ih =>
    rw [List.foldlM_cons] at hr
    cases hf : f s x with
    | error e =>
      rw [hf] at hr
      cases hr
    | ok s2 =>
      rw [hf] at hr
      exact ih s2 (h s x s2 hf hs) hr

theorem writeAt_length (v : List α) (i : Nat) (x : α) (r : List α)
    (h : writeAt v i x = .ok r) : r.length = v.length := by
  unfold writeAt at h
  by_cases hi : i < v.length
  · rw [if_pos hi] at h
    cases h
    exact List.length_set _ _ _
  · rw [if_neg hi] at h
    cases h

theorem rowsM_length [Zero α] [Add α] [Mul α] (a b : Matrix α) (N : Nat) (rows : List Nat)
    (d r : List α) (h : rowsM a b N rows d = .ok r) : r.length = d.length := by
  unfold rowsM at h
  refine foldlM_preserves _ (fun (e : List α) => e.length = d.length) rows ?_ d r rfl h
  intro d1 i r1 h1 hd1
  refine foldlM_preserves _ (fun (e : List α) => e.length = d.length) (List.range N) ?_
    d1 r1 hd1 h1
  intro d2 j r2 h2 hd2
  cases hs : (List.range N).foldlM (fun (s : α) (k : Nat) => do
        let x ← readAt a.data (i * N + k)
        let y ← readAt b.data (k * N + j)
        pure (s + x * y)) 0 with
  | error e =>
    rw [hs] at h2
    cases h2
  | ok s =>
    rw [hs] at h2
    show r2.length = d.length
    rw [writeAt_length _ _ _ _ h2]
    exact hd2

theorem blockMult_size [Zero α] [Add α] [Mul α] (a b res r : Matrix α) (start stop : Nat)
    (h : Matrix.blockMult a b start stop res = .ok r) :
    r.N = res.N ∧ r.data.length = res.data.length := by
  rw [blockMult_eq_rowsM] at h
  cases hr : rowsM a b a.N (List.range' start (stop - start)) res.data with
  | error e =>
    rw [hr] at h
    cases h
  | ok d =>
    rw [hr] at h
    cases h
    exact ⟨rfl, rowsM_length _ _ _ _ _ _ hr⟩

theorem mul_size [Zero α] [Add α] [Mul α] (a b c : Matrix α) (h : Matrix.mul a b = .ok c) :
    c.N = a.N ∧ c.data.length = a.N * a.N % sizeMod := by
  rw [mul_eq_rowsM] at h
  cases hr : rowsM a b a.N (List.range a.N) (Matrix.create a.N).data with
  | error e =>
    rw [hr] at h
    cases h
  | ok d =>
    rw [hr] at h
    cases h
    refine ⟨rfl, ?_⟩
    show d.length = _
    rw [rowsM_length _ _ _ _ _ _ hr, length_create]

theorem fastMult_size [Zero α] [Add α] [Mul α] (a b c : Matrix α) (parts : Nat)
    (h : Matrix.fastMult a b parts = .ok c) :
    c.N = a.N ∧ c.data.length = a.N * a.N % sizeMod := by
  unfold Matrix.fastMult at h
  by_cases hp : parts = 0
  · simp only [if_pos hp] at h
    cases h
  · simp only [if_neg hp] at h
    have hc0 : (Matrix.create a.N : Matrix α).N = a.N ∧
        (Matrix.create a.N : Matrix α).data.length = a.N * a.N % sizeMod :=
      ⟨rfl, length_create a.N⟩
    cases hw : (List.range (parts - 1)).foldlM (fun (res : Matrix α) (i : Nat) =>
        Matrix.blockMult a b (i * (a.N / parts)) ((i + 1) * (a.N / parts)) res)
        (Matrix.create a.N) with
    | error e =>
      rw [hw] at h
      cases h
    | ok r =>
      rw [hw] at h
      have hr := foldlM_preserves _
        (fun (m : Matrix α) => m.N = a.N ∧ m.data.length = a.N * a.N % sizeMod) _
        (fun s x r2 hstep hs => by
          obtain ⟨e1, e2⟩ := blockMult_size a b s r2 _ _ hstep
          exact ⟨e1.trans hs.1, e2.trans hs.2⟩)
        _ r hc0 hw
      obtain ⟨e1, e2⟩ := blockMult_size a b r c _ _ h
      exact ⟨e1.trans hr.1, e2.trans hr.2⟩

end SizeLemmas

section FrameLemmas
variable {α : Type}

theorem idx_div {N i j : Nat} (hj : j < N) : (i * N + j) / N = i :=
  Nat.div_eq_of_lt_le (by omega) (by
    have : (i + 1) * N = i * N + N := by ring
    omega)

theorem idx_mod {N i j : Nat} (hj : j < N) : (i * N + j) % N = j := by
  rw [Nat.add_comm, Nat.add_mul_mod_self_right, Nat.mod_eq_of_lt hj]

/-- The order of two runs of the loop nest over any two lists of rows does not matter:
each position receives a value that depends on the position only. -/
theorem fillRows_comm (v : Nat → Nat → α) (N : Nat) (r1 r2 : List Nat) (d : List α) :
    fillRows v N r2 (fillRows v N r1 d) = fillRows v N r1 (fillRows v N r2 d) := by
  apply List.ext_getElem?
  intro p
  simp only [getElem?_fillRows, length_fillRows]
  split_ifs <;> rfl

/-- Two calls of `blockMult` on the same result commute, whatever their row ranges: the
matrix left by the workers of `fastMult` does not depend on the order in which they run. -/
theorem blockMult_comm [Zero α] [Add α] [Mul α] (a b res : Matrix α) (s1 e1 s2 e2 : Nat)
    (ha : a.N * a.N ≤ a.data.length) (hb : a.N * a.N ≤ b.data.length)
    (hres : a.N * a.N ≤ res.data.length) (h1 : e1 ≤ a.N) (h2 : e2 ≤ a.N) :
    (Matrix.blockMult a b s1 e1 res).bind (Matrix.blockMult a b s2 e2)
      = (Matrix.blockMult a b s2 e2 res).bind (Matrix.blockMult a b s1 e1) := by
  rw [blockMult_ok a b res s1 e1 h1 ha hb hres, blockMult_ok a b res s2 e2 h2 ha hb hres]
  show Matrix.blockMult a b s2 e2 _ = Matrix.blockMult a b s1 e1 _
  rw [blockMult_ok a b _ s2 e2 h2 ha hb (by
      show a.N * a.N ≤ (fillRows _ _ _ _).length
      rw [length_fillRows]
      exact hres),
    blockMult_ok a b _ s1 e1 h1 ha hb (by
      show a.N * a.N ≤ (fillRows _ _ _ _).length
      rw [length_fillRows]
      exact hres)]
  show Except.ok (Matrix.mk res.N (fillRows _ _ _ (fillRows _ _ _ _)))
    = Except.ok (Matrix.mk res.N (fillRows _ _ _ (fillRows _ _ _ _)))
  rw [fillRows_comm]

end FrameLemmas

section RowCountLemmas

end RowCountLemmas

section OutputLemmas
variable {α : Type}

theorem outputIndex_eq (N i : Nat) : outputIndex N i = i := by
  unfold outputIndex
  rw [Nat.mul_comm]
  exact Nat.div_add_mod i N

theorem separator_idx {N r c : Nat} (hc : c < N) :
    separator N (r * N + c) = if c + 1 = N then "\n" else " " := by
  unfold separator
  have h1 : (r * N + c + 1) % N = (c + 1) % N := by
    rw [Nat.add_assoc, Nat.add_comm, Nat.add_mul_mod_self_right]
  rw [h1]
  by_cases h : c + 1 = N
  · rw [if_pos h, h, Nat.mod_self, if_neg (by simp)]
  · rw [if_neg h, Nat.mod_eq_of_lt (by omega), if_pos (by omega)]

theorem separator_newline_iff (N i : Nat) :
    (separator N i = "\n" ↔ (i + 1) % N = 0) ∧ (separator N i = " " ↔ (i + 1) % N ≠ 0) := by
  unfold separator
  by_cases h : (i + 1) % N ≠ 0
  · rw [if_pos h]
    exact ⟨⟨fun h2 => absurd h2 (by decide), fun h2 => absurd h2 h⟩, ⟨fun _ => h, fun _ => rfl⟩⟩
  · rw [if_neg h]
    exact ⟨⟨fun _ => not_not.mp h, fun _ => rfl⟩, ⟨fun h2 => absurd h2 (by decide), fun h2 => absurd h2 h⟩⟩

theorem last_column_iff {N i : Nat} (hN : 0 < N) : (i + 1) % N = 0 ↔ i % N = N - 1 := by
  have h1 := Nat.div_add_mod i N
  have h2 := Nat.mod_lt i hN
  constructor
  · intro h
    by_contra hne
    have h3 : (i + 1) % N = i % N + 1 := by
      have : i + 1 = (i % N + 1) + N * (i / N) := by omega
      rw [this, Nat.add_mul_mod_self_left, Nat.mod_eq_of_lt (by omega)]
    omega
  · intro h
    have : i + 1 = N * (i / N + 1) := by
      rw [Nat.mul_add, Nat.mul_one]
      omega
    rw [this, Nat.mul_mod_right]

theorem foldl_pieces (g h : Nat → String) (l : List Nat) (acc : String) :
    l.foldl (fun out i => out ++ g i ++ h i) acc
      = (l.flatMap (fun i => [g i, h i])).foldl (fun r s => r ++ s) acc := by
  induction l generalizing acc with
  | nil => rfl
  | cons i rest ih =>
    rw [List.foldl_cons, ih, List.flatMap_cons, List.foldl_append]
    rfl

theorem foldl_append_join (l : List String) (acc : String) :
    l.foldl (fun r s => r ++ s) acc = acc ++ String.join l := by
  unfold String.join
  induction l generalizing acc with
  | nil => simp
  | cons s rest ih =>
    rw [List.foldl_cons, List.foldl_cons, ih, ih ("" ++ s), String.empty_append,
      String.append_assoc]

theorem range_rows (M N : Nat) :
    List.range (M * N) = (List.range M).flatMap (fun r => (List.range N).map (fun c => r * N + c)) := by
  induction M with
  | zero => simp
  | succ M ih =>
    rw [Nat.succ_mul, List.range_add, ih, List.range_succ, List.flatMap_append,
      List.flatMap_singleton]

theorem intersperse_concat {β : Type} (sep x : β) (l : List β) :
    (l ++ [x]).intersperse sep = l.flatMap (fun y => [y, sep]) ++ [x] := by
  induction l with
  | nil => rfl
  | cons y rest ih =>
    cases rest with
    | nil => rfl
    | cons z rest2 =>
      rw [List.cons_append, List.cons_append, List.intersperse_cons₂, ← List.cons_append, ih]
      rfl

theorem row_pieces (u : Nat → String) (N : Nat) (hN : 0 < N) :
    (List.range N).flatMap (fun c => [u c, if c + 1 = N then "\n" else " "])
      = ((List.range N).map u).intersperse " " ++ ["\n"] := by
  obtain ⟨n, rfl⟩ : ∃ n, N = n + 1 := ⟨N - 1, by omega⟩
  rw [List.range_succ, List.flatMap_append, List.flatMap_singleton, List.map_append,
    List.map_singleton, intersperse_concat, List.flatMap_map, if_pos rfl]
  have h1 : (List.range n).flatMap (fun c => [u c, if c + 1 = n + 1 then "\n" else " "])
      = (List.range n).flatMap (fun c => [u c, " "]) := by
    apply List.flatMap_congr
    intro c hc
    have : c < n := List.mem_range.mp hc
    rw [if_neg (by omega)]
  rw [h1, List.append_assoc]
  rfl

theorem output_pieces [Zero α] (fmt : α → String) (m : Matrix α) :
    (List.range (m.N * m.N)).flatMap (fun i => [fmt (m.data.getD i 0), separator m.N i])
      = (List.range m.N).flatMap (renderRow fmt m) := by
  rw [range_rows, List.flatMap_assoc]
  apply List.flatMap_congr
  intro r hr
  have hpos : 0 < m.N := by
    have := List.mem_range.mp hr
    omega
  rw [List.flatMap_map]
  unfold renderRow
  rw [← row_pieces (fun c => fmt (m.data.getD (r * m.N + c) 0)) m.N hpos]
  apply List.flatMap_congr
  intro c hc
  rw [separator_idx (List.mem_range.mp hc)]

theorem output_ok [Zero α] (fmt : α → String) (out : String) (m : Matrix α) (hm : m.WF) :
    Matrix.output fmt out m = .ok (out ++ render fmt m) := by
  obtain ⟨h1, _⟩ := foldlM_ok
    (fun (out : String) (i : Nat) => do
      let x ← readAt m.data (outputIndex m.N i)
      pure (out ++ fmt x ++ separator m.N i))
    (fun out i => out ++ fmt (m.data.getD i 0) ++ separator m.N i)
    (fun _ => True) (List.range (m.N * m.N))
    (by
      intro s i hi _
      refine ⟨?_, trivial⟩
      beta_reduce
      rw [outputIndex_eq, readAt_of_lt _ _ (by rw [hm.1]; exact List.mem_range.mp hi)]
      rfl)
    out trivial
  unfold Matrix.output
  rw [Nat.mod_eq_of_lt hm.2, h1, foldl_pieces, foldl_append_join, output_pieces]
  rfl

end OutputLemmas

section DoubleLemmas

theorem Dbl.mul_fin (x y : Int) :
    Dbl.fin x * Dbl.fin y = Dbl.round (decide (x * y < 0)) (x * y).natAbs 1074 := by
  show Dbl.mul (Dbl.fin x) (Dbl.fin y) = _
  rw [Dbl.mul]

theorem Dbl.zero_def : (0 : Dbl) = Dbl.fin 0 := rfl

theorem Dbl.round_zero : Dbl.round (decide ((0 : Int) < 0)) (0 : Int).natAbs 1074 = Dbl.fin 0 := by
  decide

theorem Dbl.zero_add_zero : (0 : Dbl) + 0 = 0 := by decide

/-- Every finite `double` satisfies the two absorption laws asked of the elements in the
zero products. -/
theorem Dbl.finite_absorbs (k : Int) :
    (0 : Dbl) + Dbl.fin k * 0 = 0 ∧ (0 : Dbl) + 0 * Dbl.fin k = 0 := by
  have h1 : Dbl.fin k * 0 = 0 := by
    rw [Dbl.zero_def, Dbl.mul_fin, Int.mul_zero]
    exact Dbl.round_zero
  have h2 : 0 * Dbl.fin k = 0 := by
    rw [Dbl.zero_def, Dbl.mul_fin, Int.zero_mul]
    exact Dbl.round_zero
  rw [h1, h2]
  exact ⟨Dbl.zero_add_zero, Dbl.zero_add_zero⟩

/-- Zero products on `double`s: for a matrix with finite elements only, both products with
the zero matrix of its dimension are that zero matrix. -/
theorem mul_zero_finite (a : Matrix Dbl) (ha : a.WF)
    (hfin : ∀ x, x ∈ a.data → ∃ k, x = Dbl.fin k) :
    Matrix.mul a (Matrix.create a.N) = .ok (Matrix.create a.N) ∧
    Matrix.mul (Matrix.create a.N) a = .ok (Matrix.create a.N) := by
  apply mul_zero_ok a ha
  intro x hx
  obtain ⟨k, rfl⟩ := hfin x hx
  exact Dbl.finite_absorbs k

end DoubleLemmas

section Claims
variable {α : Type}

/-- C1: for matrices `a`, `b` of the same dimension `N`, the sequential product `a * b`
returns a matrix of dimension `N` with `N * N` elements whose element at linear index
`i * N + j` (for all `i, j < N`) is the sum of `a[i*N + k] * b[k*N + j]` accumulated from
`0` left to right for `k = 0, …, N - 1`. -/
theorem mul_spec [Zero α] [Add α] [Mul α] (a b : Matrix α) (ha : a.WF) (hb : b.WF)
    (hN : b.N = a.N) :
    ∃ c : Matrix α, Matrix.mul a b = .ok c ∧ c.N = a.N ∧ c.WF ∧
      ∀ i j, i < a.N → j < a.N →
        c.data.get? (i * a.N + j) = some ((List.range a.N).foldl
          (fun s k => s + a.data.getD (i * a.N + k) 0 * b.data.getD (k * a.N + j) 0) 0) := by
  obtain ⟨c, h1, h2, h3, h4⟩ := mul_entries a b ha (by rw [hb.1, hN])
  exact ⟨c, h1, h2, ⟨by rw [h3, h2], by rw [h2]; exact ha.2⟩, h4⟩

/-- C1 at the matrices `[1, 2, 3, 4]` and `[5, 6, 7, 8]` of dimension 2. -/
theorem mul_spec_witness :
    (Matrix.mk 2 [1, 2, 3, 4] : Matrix ℚ).WF ∧ (Matrix.mk 2 [5, 6, 7, 8] : Matrix ℚ).WF ∧
    ∃ c : Matrix ℚ, Matrix.mul (Matrix.mk 2 [1, 2, 3, 4]) (Matrix.mk 2 [5, 6, 7, 8]) = .ok c ∧
      c.N = 2 ∧ c.WF ∧ ∀ i j, i < 2 → j < 2 →
        c.data.get? (i * 2 + j) = some ((List.range 2).foldl
          (fun s k => s + [(1 : ℚ), 2, 3, 4].getD (i * 2 + k) 0 *
            [(5 : ℚ), 6, 7, 8].getD (k * 2 + j) 0) 0) :=
  ⟨by decide, by decide,
    mul_spec (Matrix.mk 2 [1, 2, 3, 4]) (Matrix.mk 2 [5, 6, 7, 8]) (by decide) (by decide) rfl⟩

/-- C2: for matrices `a`, `b` of the same dimension and every `parts ≥ 1` (in particular
`1 ≤ parts ≤ N`), `a.fastMult(b, parts)` and `a * b` both return, the results have the same
dimension and the same element at every linear index, `(a * b) == a.fastMult(b, parts)` is
true and `(a * b) != a.fastMult(b, parts)`, the test of the driver, is false. -/
theorem fastMult_matches_mul [LinearOrderedField α] (a b : Matrix α) (parts : Nat)
    (ha : a.WF) (hb : b.WF) (hN : b.N = a.N) (hparts : 1 ≤ parts) :
    ∃ c d : Matrix α, Matrix.mul a b = .ok c ∧ Matrix.fastMult a b parts = .ok d ∧
      d.N = c.N ∧ (∀ p, d.data.get? p = c.data.get? p) ∧
      Matrix.eq c d = .ok true ∧ Matrix.ne c d = .ok false := by
  have hb2 : a.N * a.N ≤ b.data.length := by rw [hb.1, hN]
  obtain ⟨c, h1, h2, h3, _⟩ := mul_entries a b ha hb2
  have h4 : Matrix.fastMult a b parts = .ok c := by
    rw [fastMult_eq_mul a b parts (by omega) ha.2 (le_of_eq ha.1.symm) hb2, h1]
  have h5 : Matrix.eq c c = .ok true :=
    eq_of_data_eq c c (by rw [h2]; exact ha.2) (by rw [h3, h2]) rfl
  refine ⟨c, c, h1, h4, rfl, fun _ => rfl, h5, ?_⟩
  unfold Matrix.ne
  rw [h5]
  rfl

/-- C2 at the matrices `[1, 2, 3, 4]` and `[5, 6, 7, 8]` of dimension 2 with two workers. -/
theorem fastMult_matches_mul_witness :
    (Matrix.mk 2 [1, 2, 3, 4] : Matrix ℚ).WF ∧ (Matrix.mk 2 [5, 6, 7, 8] : Matrix ℚ).WF ∧
    1 ≤ 2 ∧
    ∃ c d : Matrix ℚ, Matrix.mul (Matrix.mk 2 [1, 2, 3, 4]) (Matrix.mk 2 [5, 6, 7, 8]) = .ok c ∧
      Matrix.fastMult (Matrix.mk 2 [1, 2, 3, 4]) (Matrix.mk 2 [5, 6, 7, 8]) 2 = .ok d ∧
      d.N = c.N ∧ (∀ p, d.data.get? p = c.data.get? p) ∧
      Matrix.eq c d = .ok true ∧ Matrix.ne c d = .ok false :=
  ⟨by decide, by decide, by decide,
    fastMult_matches_mul (Matrix.mk 2 [1, 2, 3, 4]) (Matrix.mk 2 [5, 6, 7, 8]) 2
      (by decide) (by decide) rfl (by decide)⟩

/-- C4, as stated, fails on `double`s.  For `a = b = [∞]` the difference is NaN, `a == b`
returns true, and the test `|a[0] - b[0]| <= epsilon` is false.  For `a = [2⁻⁵²]` and
`b = [-2⁻¹²⁰]` the difference rounds to `2⁻⁵²`, `a == b` returns true, and the distance
`2⁻⁵² + 2⁻¹²⁰` of the two elements is above epsilon (in units of `2⁻¹⁰⁷⁴`:
`2¹⁰²² + 2⁹⁵⁴ > 2¹⁰²²`). -/
theorem eq_true_beyond_epsilon :
    (Matrix.eq (Matrix.mk 1 [Dbl.posInf]) (Matrix.mk 1 [Dbl.posInf]) = .ok true ∧
      Dbl.le (Dbl.fabs (Dbl.sub Dbl.posInf Dbl.posInf)) Dbl.epsilon = false) ∧
    (Dbl.isDouble (Dbl.fin ((2 ^ 1022 : Nat) : Int)) = true ∧
      Dbl.isDouble (Dbl.fin (-((2 ^ 954 : Nat) : Int))) = true ∧
      Matrix.eq (Matrix.mk 1 [Dbl.fin ((2 ^ 1022 : Nat) : Int)])
        (Matrix.mk 1 [Dbl.fin (-((2 ^ 954 : Nat) : Int))]) = .ok true ∧
      ¬ (|((2 ^ 1022 : Nat) : Int) - (-((2 ^ 954 : Nat) : Int))| ≤ ((2 ^ 1022 : Nat) : Int))) := by
  refine ⟨⟨?_, by decide⟩, by decide, by decide, ?_, by decide⟩
  · rw [eq_ok_gen (Matrix.mk 1 [Dbl.posInf]) (Matrix.mk 1 [Dbl.posInf]) one_fits
      (Nat.le_refl 1) (Nat.le_refl 1)]
    congr 1
  · rw [eq_ok_gen (Matrix.mk 1 [Dbl.fin ((2 ^ 1022 : Nat) : Int)])
      (Matrix.mk 1 [Dbl.fin (-((2 ^ 954 : Nat) : Int))]) one_fits
      (Nat.le_refl 1) (Nat.le_refl 1)]
    congr 1

/-- C4, amended: for matrices `a`, `b` of the same dimension `N`, `a == b` returns, and it
returns true exactly when for every linear index `i < N * N` the test
`std::fabs(a[i] - b[i]) > epsilon`, evaluated in the arithmetic of `double`, is false: the
difference is the rounded one, and a NaN difference passes.  `a != b` returns the negation
of that result. -/
theorem eq_spec {α : Type} [Tolerance α] [Zero α] (a b : Matrix α) (ha : a.WF) (hb : b.WF)
    (hN : b.N = a.N) :
    ∃ r : Bool, Matrix.eq a b = .ok r ∧ Matrix.ne a b = .ok (!r) ∧
      (r = true ↔ ∀ i, i < a.N * a.N →
        Tolerance.gt (Tolerance.fabs (Tolerance.sub (a.data.getD i 0) (b.data.getD i 0)))
          Tolerance.epsilon = false) := by
  have h := eq_ok_gen a b ha.2 (le_of_eq ha.1.symm) (by rw [hb.1, hN])
  exact ⟨_, h, ne_of_eq a b _ h, decide_eq_true_iff⟩

/-- C4, amended, at the `double` matrices `[1]` and `[1 + 2⁻⁵²]` of dimension 1. -/
theorem eq_spec_witness :
    (Matrix.mk 1 [Dbl.fin ((2 ^ 1074 : Nat) : Int)]).WF ∧
    (Matrix.mk 1 [Dbl.fin ((2 ^ 1074 + 2 ^ 1022 : Nat) : Int)]).WF ∧
    ∃ r : Bool, Matrix.eq (Matrix.mk 1 [Dbl.fin ((2 ^ 1074 : Nat) : Int)])
        (Matrix.mk 1 [Dbl.fin ((2 ^ 1074 + 2 ^ 1022 : Nat) : Int)]) = .ok r ∧
      Matrix.ne (Matrix.mk 1 [Dbl.fin ((2 ^ 1074 : Nat) : Int)])
        (Matrix.mk 1 [Dbl.fin ((2 ^ 1074 + 2 ^ 1022 : Nat) : Int)]) = .ok (!r) ∧
      (r = true ↔ ∀ i, i < 1 * 1 →
        Dbl.gt (Dbl.fabs (Dbl.sub ([Dbl.fin ((2 ^ 1074 : Nat) : Int)].getD i 0)
          ([Dbl.fin ((2 ^ 1074 + 2 ^ 1022 : Nat) : Int)].getD i 0))) Dbl.epsilon = false) :=
  ⟨by decide, by decide,
    eq_spec (Matrix.mk 1 [Dbl.fin ((2 ^ 1074 : Nat) : Int)])
      (Matrix.mk 1 [Dbl.fin ((2 ^ 1074 + 2 ^ 1022 : Nat) : Int)]) (by decide) (by decide) rfl⟩

/-- C6, as stated, fails: on two matrices of dimension 1, `a.fastMult(b, 0)` does not end
in an invalid-partition-count error. -/
theorem zero_parts_not_invalidPartitionCount :
    Matrix.fastMult (Matrix.mk 1 [1] : Matrix ℚ) (Matrix.mk 1 [1]) 0
      ≠ .error .invalidPartitionCount := by
  intro h
  cases h

/-- C6, amended: `fastMult` does not check `parts`; for all matrices `a`, `b` the call
`a.fastMult(b, 0)` evaluates `N / 0`, it ends in the division-by-zero fault and returns no
matrix. -/
theorem fastMult_zero_parts [Zero α] [Add α] [Mul α] (a b : Matrix α) :
    Matrix.fastMult a b 0 = .error .divisionByZero := rfl

/-- C8: for matrices `a`, `b` of the same dimension `N` and every `parts > N`,
`partSize = N / parts` is `0`, each of the first `parts - 1` workers receives the range
`[0, 0)` and `blockMult` on that range returns `res` unchanged, the last worker receives
`[0, N)`, and `a.fastMult(b, parts)` returns, without a fault, the same matrix as `a * b`. -/
theorem fastMult_more_parts_than_rows [Zero α] [Add α] [Mul α] (a b : Matrix α) (parts : Nat)
    (ha : a.WF) (hb : b.WF) (hN : b.N = a.N) (hparts : a.N < parts) :
    a.N / parts = 0 ∧
    (∀ p, p < parts - 1 → workerRange a.N parts p = (0, 0)) ∧
    (∀ res : Matrix α, Matrix.blockMult a b 0 0 res = .ok res) ∧
    workerRange a.N parts (parts - 1) = (0, a.N) ∧
    ∃ c d : Matrix α, Matrix.mul a b = .ok c ∧ Matrix.fastMult a b parts = .ok d ∧
      d.N = c.N ∧ ∀ p, d.data.get? p = c.data.get? p := by
  have hps : a.N / parts = 0 := Nat.div_eq_of_lt hparts
  have hb2 : a.N * a.N ≤ b.data.length := by rw [hb.1, hN]
  obtain ⟨c, h1, _⟩ := mul_entries a b ha hb2
  refine ⟨hps, ?_, fun res => rfl, ?_, c, c, h1, ?_, rfl, fun _ => rfl⟩
  · intro p hp
    unfold workerRange
    rw [if_pos hp, hps, Nat.mul_zero, Nat.mul_zero]
  · unfold workerRange
    rw [if_neg (lt_irrefl _), hps, Nat.mul_zero]
  · rw [fastMult_eq_mul a b parts (by omega) ha.2 (le_of_eq ha.1.symm) hb2, h1]

/-- C8 at two matrices of dimension 2 and seven workers. -/
theorem fastMult_more_parts_than_rows_witness :
    (Matrix.mk 2 [1, 2, 3, 4] : Matrix ℚ).WF ∧ (Matrix.mk 2 [5, 6, 7, 8] : Matrix ℚ).WF ∧
    2 < 7 ∧
    (2 / 7 = 0 ∧
    (∀ p, p < 7 - 1 → workerRange 2 7 p = (0, 0)) ∧
    (∀ res : Matrix ℚ,
      Matrix.blockMult (Matrix.mk 2 [1, 2, 3, 4]) (Matrix.mk 2 [5, 6, 7, 8]) 0 0 res = .ok res) ∧
    workerRange 2 7 (7 - 1) = (0, 2) ∧
    ∃ c d : Matrix ℚ, Matrix.mul (Matrix.mk 2 [1, 2, 3, 4]) (Matrix.mk 2 [5, 6, 7, 8]) = .ok c ∧
      Matrix.fastMult (Matrix.mk 2 [1, 2, 3, 4]) (Matrix.mk 2 [5, 6, 7, 8]) 7 = .ok d ∧
      d.N = c.N ∧ ∀ p, d.data.get? p = c.data.get? p) :=
  ⟨by decide, by decide, by decide,
    fastMult_more_parts_than_rows (Matrix.mk 2 [1, 2, 3, 4]) (Matrix.mk 2 [5, 6, 7, 8]) 7
      (by decide) (by decide) rfl (by decide)⟩

/-- C9: for `A` of dimension 2 with elements `[1, 2, 3, 4]` and `B` of dimension 2 with
elements `[5, 6, 7, 8]`, `A * B` returns the matrix of dimension 2 with elements
`[19, 22, 43, 50]`, and `A.fastMult(B, 2)` returns the same matrix. -/
theorem known_small_case [LinearOrderedField α] :
    Matrix.mul (Matrix.mk 2 [1, 2, 3, 4] : Matrix α) (Matrix.mk 2 [5, 6, 7, 8])
      = .ok (Matrix.mk 2 [19, 22, 43, 50]) ∧
    Matrix.fastMult (Matrix.mk 2 [1, 2, 3, 4] : Matrix α) (Matrix.mk 2 [5, 6, 7, 8]) 2
      = .ok (Matrix.mk 2 [19, 22, 43, 50]) := by
  have h : Matrix.mul (Matrix.mk 2 [1, 2, 3, 4] : Matrix α) (Matrix.mk 2 [5, 6, 7, 8])
      = .ok (Matrix.mk 2 [19, 22, 43, 50]) := by
    rw [mul_ok (Matrix.mk 2 [1, 2, 3, 4]) (Matrix.mk 2 [5, 6, 7, 8]) four_fits
      (Nat.le_refl 4) (Nat.le_refl 4)]
    simp [fillRows, cell, List.range_succ]
    norm_num
  refine ⟨h, ?_⟩
  rw [fastMult_eq_mul (Matrix.mk 2 [1, 2, 3, 4]) (Matrix.mk 2 [5, 6, 7, 8]) 2 (by decide)
    four_fits (Nat.le_refl 4) (Nat.le_refl 4), h]

/-- C10: for every matrix `a` of dimension `N` and a matrix `I` of dimension `N` whose
element at `i * N + j` is `1` when `i = j` and `0` otherwise, `a * I` returns a matrix `c`
for which `c == a` is true. -/
theorem mul_identity_eq [LinearOrderedField α] (a I : Matrix α) (ha : a.WF) (hI : I.WF)
    (hN : I.N = a.N)
    (hid : ∀ i, i < a.N → ∀ j, j < a.N →
      I.data.get? (i * a.N + j) = some (if i = j then 1 else 0)) :
    ∃ c : Matrix α, Matrix.mul a I = .ok c ∧ Matrix.eq c a = .ok true :=
  ⟨a, mul_identity a I ha hI hN hid, eq_of_data_eq a a ha.2 (le_of_eq ha.1.symm) rfl⟩

/-- C10 at the matrix `[1, 2, 3, 4]` and the identity `[1, 0, 0, 1]` of dimension 2. -/
theorem mul_identity_eq_witness :
    (Matrix.mk 2 [1, 2, 3, 4] : Matrix ℚ).WF ∧ (Matrix.mk 2 [1, 0, 0, 1] : Matrix ℚ).WF ∧
    (∀ i, i < 2 → ∀ j, j < 2 →
      [(1 : ℚ), 0, 0, 1].get? (i * 2 + j) = some (if i = j then 1 else 0)) ∧
    ∃ c : Matrix ℚ, Matrix.mul (Matrix.mk 2 [1, 2, 3, 4]) (Matrix.mk 2 [1, 0, 0, 1]) = .ok c ∧
      Matrix.eq c (Matrix.mk 2 [1, 2, 3, 4]) = .ok true :=
  ⟨by decide, by decide, by decide,
    mul_identity_eq (Matrix.mk 2 [1, 2, 3, 4]) (Matrix.mk 2 [1, 0, 0, 1])
      (by decide) (by decide) rfl (by decide)⟩

/-- C11, as stated, fails on `double`s.  The matrix `[2⁷⁰⁰]` of dimension 1 times itself is
`[∞]`, and for `a = [∞]` and the zero matrix `Z = Matrix(1)` both `a * Z` and `Z * a` are
`[NaN]`, not the zero matrix. -/
theorem mul_zero_matrix_nan :
    Dbl.isDouble (Dbl.fin ((2 ^ 1774 : Nat) : Int)) = true ∧
    Matrix.mul (Matrix.mk 1 [Dbl.fin ((2 ^ 1774 : Nat) : Int)])
      (Matrix.mk 1 [Dbl.fin ((2 ^ 1774 : Nat) : Int)]) = .ok (Matrix.mk 1 [Dbl.posInf]) ∧
    Matrix.mul (Matrix.mk 1 [Dbl.posInf]) (Matrix.create 1) = .ok (Matrix.mk 1 [Dbl.nan]) ∧
    Matrix.mul (Matrix.create 1) (Matrix.mk 1 [Dbl.posInf]) = .ok (Matrix.mk 1 [Dbl.nan]) ∧
    Dbl.nan ≠ 0 := by
  refine ⟨by decide, ?_, ?_, ?_, by decide⟩
  · rw [mul_ok (Matrix.mk 1 [Dbl.fin ((2 ^ 1774 : Nat) : Int)])
      (Matrix.mk 1 [Dbl.fin ((2 ^ 1774 : Nat) : Int)]) one_fits (Nat.le_refl 1) (Nat.le_refl 1)]
    congr 1
  · rw [mul_ok (Matrix.mk 1 [Dbl.posInf]) (Matrix.create 1) one_fits (Nat.le_refl 1)
      (Nat.le_refl 1)]
    congr 1
  · rw [mul_ok (Matrix.create 1) (Matrix.mk 1 [Dbl.posInf]) one_fits (Nat.le_refl 1)
      (Nat.le_refl 1)]
    congr 1

/-- C11, amended: for every matrix `a` of dimension `N` whose elements `x` all satisfy
`0 + x * 0 = 0` and `0 + 0 * x = 0` in the arithmetic of `double`, as every finite element
does, and the zero matrix `Z = Matrix(N)`, both `a * Z` and `Z * a` return a matrix of
dimension `N` with `N * N` elements, every one of them `0`. -/
theorem mul_zero_matrix {α : Type} [Zero α] [Add α] [Mul α] (a : Matrix α) (ha : a.WF)
    (hfinite : ∀ x, x ∈ a.data → (0 : α) + x * 0 = 0 ∧ (0 : α) + 0 * x = 0) :
    ∃ c d : Matrix α, Matrix.mul a (Matrix.create a.N) = .ok c ∧
      Matrix.mul (Matrix.create a.N) a = .ok d ∧
      c.N = a.N ∧ c.data.length = a.N * a.N ∧ (∀ x, x ∈ c.data → x = 0) ∧
      d.N = a.N ∧ d.data.length = a.N * a.N ∧ (∀ x, x ∈ d.data → x = 0) := by
  obtain ⟨h1, h2⟩ := mul_zero_ok a ha hfinite
  have hlen := (create_WF (α := α) a.N ha.2).1
  have hzero : ∀ x, x ∈ (Matrix.create a.N : Matrix α).data → x = 0 :=
    fun x hx => List.eq_of_mem_replicate hx
  exact ⟨_, _, h1, h2, rfl, hlen, hzero, rfl, hlen, hzero⟩

/-- C11, amended, at the `double` matrix `[1, -3, 2⁻⁵², 0]` of dimension 2. -/
theorem mul_zero_matrix_witness :
    (Matrix.mk 2 [Dbl.fin ((2 ^ 1074 : Nat) : Int), Dbl.fin (-((3 * 2 ^ 1074 : Nat) : Int)),
      Dbl.fin ((2 ^ 1022 : Nat) : Int), Dbl.fin 0]).WF ∧
    (∀ x, x ∈ [Dbl.fin ((2 ^ 1074 : Nat) : Int), Dbl.fin (-((3 * 2 ^ 1074 : Nat) : Int)),
      Dbl.fin ((2 ^ 1022 : Nat) : Int), Dbl.fin 0] →
      (0 : Dbl) + x * 0 = 0 ∧ (0 : Dbl) + 0 * x = 0) ∧
    ∃ c d : Matrix Dbl,
      Matrix.mul (Matrix.mk 2 [Dbl.fin ((2 ^ 1074 : Nat) : Int),
        Dbl.fin (-((3 * 2 ^ 1074 : Nat) : Int)), Dbl.fin ((2 ^ 1022 : Nat) : Int), Dbl.fin 0])
        (Matrix.create 2) = .ok c ∧
      Matrix.mul (Matrix.create 2) (Matrix.mk 2 [Dbl.fin ((2 ^ 1074 : Nat) : Int),
        Dbl.fin (-((3 * 2 ^ 1074 : Nat) : Int)), Dbl.fin ((2 ^ 1022 : Nat) : Int), Dbl.fin 0])
        = .ok d ∧
      c.N = 2 ∧ c.data.length = 2 * 2 ∧ (∀ x, x ∈ c.data → x = 0) ∧
      d.N = 2 ∧ d.data.length = 2 * 2 ∧ (∀ x, x ∈ d.data → x = 0) :=
  ⟨by decide, by decide,
    mul_zero_matrix (Matrix.mk 2 [Dbl.fin ((2 ^ 1074 : Nat) : Int),
      Dbl.fin (-((3 * 2 ^ 1074 : Nat) : Int)), Dbl.fin ((2 ^ 1022 : Nat) : Int), Dbl.fin 0])
      (by decide) (by decide)⟩

/-- C13, as stated, fails: comparing a matrix of dimension 1 with a matrix of dimension 2
returns a boolean and no dimension-mismatch error. -/
theorem eq_one_by_two_returns :
    (Matrix.mk 1 [0] : Matrix ℚ).N ≠ (Matrix.mk 2 [0, 1, 2, 3] : Matrix ℚ).N ∧
    Matrix.eq (Matrix.mk 1 [0] : Matrix ℚ) (Matrix.mk 2 [0, 1, 2, 3]) = .ok true ∧
    Matrix.eq (Matrix.mk 1 [0] : Matrix ℚ) (Matrix.mk 2 [0, 1, 2, 3])
      ≠ .error .dimensionMismatch := by
  have h : Matrix.eq (Matrix.mk 1 [0] : Matrix ℚ) (Matrix.mk 2 [0, 1, 2, 3]) = .ok true := by
    rw [eq_ok _ _ (by decide) (by decide) (by decide)]
    congr 1
    rw [decide_eq_true_iff]
    intro i hi
    have hi0 : i = 0 := by
      have : i < 1 := hi
      omega
    subst hi0
    simp [epsilon]
  refine ⟨by decide, h, ?_⟩
  rw [h]
  intro h2
  cases h2

/-- C13, amended: `operator==` does not compare the dimensions, and on no operands does it
end in a dimension-mismatch error.  For matrices `a`, `b` with `a.N ≤ b.N` it returns a
boolean, which is true exactly when the test `std::fabs(a[i] - b[i]) > epsilon`, evaluated
in the arithmetic of `double`, is false for every `i < a.N * a.N`; each such index lies
inside both vectors, and the further elements of `b` are not looked at.  For `b.N < a.N`
it returns false when that test is true for some `i < b.N * b.N`, and otherwise reads `b`
at the index `b.N * b.N`, outside its elements. -/
theorem eq_unequal_dims {α : Type} [Tolerance α] [Zero α] (a b : Matrix α) :
    Matrix.eq a b ≠ .error .dimensionMismatch ∧
    Matrix.ne a b ≠ .error .dimensionMismatch ∧
    (a.WF → b.WF → a.N ≤ b.N →
      ∃ r : Bool, Matrix.eq a b = .ok r ∧ Matrix.ne a b = .ok (!r) ∧
        (r = true ↔ ∀ i, i < a.N * a.N →
          i < a.data.length ∧ i < b.data.length ∧
          Tolerance.gt (Tolerance.fabs (Tolerance.sub (a.data.getD i 0) (b.data.getD i 0)))
            Tolerance.epsilon = false)) ∧
    (a.WF → b.WF → b.N < a.N →
      Matrix.eq a b =
        if ∀ i, i < b.N * b.N →
          Tolerance.gt (Tolerance.fabs (Tolerance.sub (a.data.getD i 0) (b.data.getD i 0)))
            Tolerance.epsilon = false
        then .error .outOfRange else .ok false) := by
  have hne : Matrix.eq a b ≠ .error .dimensionMismatch := by
    intro h
    have := eqLoop_error a b _ _ h
    cases this
  refine ⟨hne, ?_, ?_, fun ha hb hN => eq_of_lt a b ha hb hN⟩
  · intro h
    unfold Matrix.ne at h
    cases he : Matrix.eq a b with
    | error e =>
      rw [he] at h
      cases h
      exact hne he
    | ok r =>
      rw [he] at h
      cases h
  · intro ha hb hN
    have hb2 : a.N * a.N ≤ b.data.length := by
      rw [hb.1]
      exact Nat.mul_le_mul hN hN
    have h := eq_ok_gen a b ha.2 (le_of_eq ha.1.symm) hb2
    refine ⟨_, h, ne_of_eq a b _ h, ?_⟩
    rw [decide_eq_true_iff]
    constructor
    · intro h i hi
      exact ⟨by rw [ha.1]; exact hi, lt_of_lt_of_le hi hb2, h i hi⟩
    · intro h i hi
      exact (h i hi).2.2

/-- C13, amended, at the matrix `[0]` of dimension 1 and `[0, 1, 2, 3]` of dimension 2, in
both orders. -/
theorem eq_unequal_dims_witness :
    (Matrix.mk 1 [0] : Matrix ℚ).WF ∧ (Matrix.mk 2 [0, 1, 2, 3] : Matrix ℚ).WF ∧ 1 ≤ 2 ∧
    Matrix.eq (Matrix.mk 1 [0] : Matrix ℚ) (Matrix.mk 2 [0, 1, 2, 3])
      ≠ .error .dimensionMismatch ∧
    Matrix.ne (Matrix.mk 1 [0] : Matrix ℚ) (Matrix.mk 2 [0, 1, 2, 3])
      ≠ .error .dimensionMismatch ∧
    (∃ r : Bool, Matrix.eq (Matrix.mk 1 [0] : Matrix ℚ) (Matrix.mk 2 [0, 1, 2, 3]) = .ok r ∧
      Matrix.ne (Matrix.mk 1 [0] : Matrix ℚ) (Matrix.mk 2 [0, 1, 2, 3]) = .ok (!r) ∧
      (r = true ↔ ∀ i, i < 1 * 1 →
        i < 1 ∧ i < 4 ∧
        decide (|[(0 : ℚ)].getD i 0 - [(0 : ℚ), 1, 2, 3].getD i 0| > epsilon ℚ) = false)) ∧
    1 < 2 ∧
    Matrix.eq (Matrix.mk 2 [0, 1, 2, 3] : Matrix ℚ) (Matrix.mk 1 [0]) =
      if ∀ i, i < 1 * 1 →
        decide (|[(0 : ℚ), 1, 2, 3].getD i 0 - [(0 : ℚ)].getD i 0| > epsilon ℚ) = false
      then .error .outOfRange else .ok false :=
  ⟨by decide, by decide, by decide,
    (eq_unequal_dims (Matrix.mk 1 [0]) (Matrix.mk 2 [0, 1, 2, 3])).1,
    (eq_unequal_dims (Matrix.mk 1 [0]) (Matrix.mk 2 [0, 1, 2, 3])).2.1,
    (eq_unequal_dims (Matrix.mk 1 [0]) (Matrix.mk 2 [0, 1, 2, 3])).2.2.1
      (by decide) (by decide) (by decide),
    by decide,
    (eq_unequal_dims (Matrix.mk 2 [0, 1, 2, 3]) (Matrix.mk 1 [0])).2.2.2
      (by decide) (by decide) (by decide)⟩

/-- C15: for matrices `a`, `b`, `res` of the same dimension `N` and `start ≤ stop ≤ N`,
`blockMult(a, b, start, stop, res)` returns `res` with every element at `i * N + j`,
`start ≤ i < stop`, `j < N`, set to the sum of `a[i*N + k] * b[k*N + j]` accumulated left
to right over `k < N`; every element in a row outside `[start, stop)` is unchanged, an
element that changed has its index in the rows `[start, stop)`, and the index sets of two
disjoint row ranges are disjoint. -/
theorem blockMult_frame [Zero α] [Add α] [Mul α] (a b res : Matrix α) (start stop : Nat)
    (ha : a.WF) (hb : b.WF) (hres : res.WF) (hNb : b.N = a.N) (hNres : res.N = a.N)
    (hss : start ≤ stop) (hstop : stop ≤ a.N) :
    ∃ r : Matrix α, Matrix.blockMult a b start stop res = .ok r ∧ r.N = res.N ∧ r.WF ∧
      (∀ i j, start ≤ i → i < stop → j < a.N →
        r.data.get? (i * a.N + j) = some ((List.range a.N).foldl
          (fun s k => s + a.data.getD (i * a.N + k) 0 * b.data.getD (k * a.N + j) 0) 0)) ∧
      (∀ i j, ¬ (start ≤ i ∧ i < stop) → j < a.N →
        r.data.get? (i * a.N + j) = res.data.get? (i * a.N + j)) ∧
      (∀ p, r.data.get? p ≠ res.data.get? p → inRows a.N start stop p) ∧
      (∀ start2 stop2 p, stop ≤ start2 →
        ¬ (inRows a.N start stop p ∧ inRows a.N start2 stop2 p)) := by
  have hlen : a.N * a.N ≤ res.data.length := by rw [hres.1, hNres]
  refine ⟨_, blockMult_ok a b res start stop hstop (le_of_eq ha.1.symm) (by rw [hb.1, hNb]) hlen,
    rfl, ?_, ?_, ?_, ?_, ?_⟩
  · exact ⟨by
      show (fillRows _ _ _ _).length = _
      rw [length_fillRows]
      exact hres.1, hres.2⟩
  · intro i j h1 h2 hj
    show (fillRows _ _ _ _).get? _ = _
    rw [List.get?_eq_getElem?]
    exact getElem?_fillRows_cell _ _ _ _ i j (List.mem_range'_1.mpr ⟨h1, by omega⟩) hj
      (lt_of_lt_of_le (idx_lt (by omega) hj) hlen)
  · intro i j hi hj
    show (fillRows _ _ _ _).get? _ = _
    rw [List.get?_eq_getElem?, List.get?_eq_getElem?, getElem?_fillRows, if_neg]
    rintro ⟨_, hm, _⟩
    rw [idx_div hj] at hm
    have := List.mem_range'_1.mp hm
    exact hi ⟨this.1, by omega⟩
  · intro p hp
    by_cases hc : 0 < a.N ∧ p / a.N ∈ List.range' start (stop - start) ∧ p < res.data.length
    · have hm := List.mem_range'_1.mp hc.2.1
      refine ⟨p / a.N, p % a.N, hm.1, by omega, Nat.mod_lt p hc.1, ?_⟩
      have := Nat.div_add_mod p a.N
      rw [Nat.mul_comm] at this
      exact this.symm
    · exfalso
      apply hp
      show (fillRows _ _ _ _).get? _ = _
      rw [List.get?_eq_getElem?, List.get?_eq_getElem?, getElem?_fillRows, if_neg hc]
  · rintro start2 stop2 p h12 ⟨⟨i, j, _, hi2, hj, rfl⟩, ⟨i2, j2, hi3, _, hj2, heq⟩⟩
    have h1 : (i * a.N + j) / a.N = i := idx_div hj
    rw [heq, idx_div hj2] at h1
    omega

/-- C15 at the matrices `[1, 2, 3, 4]`, `[5, 6, 7, 8]`, the result `[9, 9, 9, 9]` and the
row range `[1, 2)`. -/
theorem blockMult_frame_witness :
    (Matrix.mk 2 [1, 2, 3, 4] : Matrix ℚ).WF ∧ (Matrix.mk 2 [5, 6, 7, 8] : Matrix ℚ).WF ∧
    (Matrix.mk 2 [9, 9, 9, 9] : Matrix ℚ).WF ∧ 1 ≤ 2 ∧ 2 ≤ 2 ∧
    ∃ r : Matrix ℚ, Matrix.blockMult (Matrix.mk 2 [1, 2, 3, 4]) (Matrix.mk 2 [5, 6, 7, 8]) 1 2
        (Matrix.mk 2 [9, 9, 9, 9]) = .ok r ∧ r.N = 2 ∧ r.WF ∧
      (∀ i j, 1 ≤ i → i < 2 → j < 2 →
        r.data.get? (i * 2 + j) = some ((List.range 2).foldl
          (fun s k => s + [(1 : ℚ), 2, 3, 4].getD (i * 2 + k) 0 *
            [(5 : ℚ), 6, 7, 8].getD (k * 2 + j) 0) 0)) ∧
      (∀ i j, ¬ (1 ≤ i ∧ i < 2) → j < 2 →
        r.data.get? (i * 2 + j) = [(9 : ℚ), 9, 9, 9].get? (i * 2 + j)) ∧
      (∀ p, r.data.get? p ≠ [(9 : ℚ), 9, 9, 9].get? p → inRows 2 1 2 p) ∧
      (∀ start2 stop2 p, 2 ≤ start2 → ¬ (inRows 2 1 2 p ∧ inRows 2 start2 stop2 p)) :=
  ⟨by decide, by decide, by decide, by decide, by decide,
    blockMult_frame (Matrix.mk 2 [1, 2, 3, 4]) (Matrix.mk 2 [5, 6, 7, 8])
      (Matrix.mk 2 [9, 9, 9, 9]) 1 2 (by decide) (by decide) (by decide) rfl rfl
      (by decide) (by decide)⟩

/-- C17: `operator==` is not transitive, already in dimension 1: with `a = [0]`,
`b = [epsilon]` and `c = [2 * epsilon]`, `a == b` and `b == c` are true and `a == c` is
false. -/
theorem eq_not_transitive {α : Type} [LinearOrderedField α] :
    ∃ a b c : Matrix α, a.WF ∧ b.WF ∧ c.WF ∧ a.N = 1 ∧ b.N = 1 ∧ c.N = 1 ∧
      Matrix.eq a b = .ok true ∧ Matrix.eq b c = .ok true ∧ Matrix.eq a c = .ok false := by
  have key : ∀ x y : α, Matrix.eq (Matrix.mk 1 [x]) (Matrix.mk 1 [y])
      = .ok (decide (|x - y| ≤ epsilon α)) := by
    intro x y
    rw [eq_ok (Matrix.mk 1 [x]) (Matrix.mk 1 [y]) one_fits (Nat.le_refl 1) (Nat.le_refl 1)]
    congr 1
    rw [decide_eq_decide]
    constructor
    · intro h
      exact h 0 Nat.one_pos
    · intro h i hi
      have hi0 : i = 0 := by
        have : i < 1 := hi
        omega
      subst hi0
      exact h
  have hpos : (0 : α) < epsilon α := epsilon_pos
  refine ⟨Matrix.mk 1 [0], Matrix.mk 1 [epsilon α], Matrix.mk 1 [2 * epsilon α],
    ⟨rfl, one_fits⟩, ⟨rfl, one_fits⟩, ⟨rfl, one_fits⟩, rfl, rfl, rfl, ?_, ?_, ?_⟩
  · rw [key, decide_eq_true]
    rw [zero_sub, abs_neg, abs_of_pos hpos]
  · rw [key, decide_eq_true]
    have : epsilon α - 2 * epsilon α = -epsilon α := by ring
    rw [this, abs_neg, abs_of_pos hpos]
  · rw [key, decide_eq_false]
    rw [zero_sub, abs_neg, abs_of_pos (by linarith)]
    linarith

/-- C18: for every matrix `m` of dimension `N ≥ 1` and every `i < N * N`, the index
`(i / N) * N + i % N` read by `operator<<` is `i`, and the separator written after
element `i` is a newline exactly when `i` is in the last column, `(i + 1) % N = 0`, and a
space otherwise; the text written is that of `N` rows, each with its `N` values separated
by single spaces and ended by a newline. -/
theorem output_spec {α : Type} [Zero α] (fmt : α → String) (out : String) (m : Matrix α)
    (hm : m.WF) (hN : 1 ≤ m.N) :
    (∀ i, i < m.N * m.N → outputIndex m.N i = i) ∧
    (∀ i, i < m.N * m.N →
      (separator m.N i = "\n" ↔ (i + 1) % m.N = 0) ∧
      (separator m.N i = " " ↔ (i + 1) % m.N ≠ 0) ∧
      ((i + 1) % m.N = 0 ↔ i % m.N = m.N - 1)) ∧
    Matrix.output fmt out m = .ok (out ++ render fmt m) ∧
    render fmt m = String.join ((List.range m.N).flatMap (fun r =>
      ((List.range m.N).map (fun c => fmt (m.data.getD (r * m.N + c) 0))).intersperse " "
        ++ ["\n"])) := by
  refine ⟨fun i _ => outputIndex_eq m.N i, fun i _ => ?_, output_ok fmt out m hm, rfl⟩
  exact ⟨(separator_newline_iff m.N i).1, (separator_newline_iff m.N i).2,
    last_column_iff (by omega)⟩

/-- C18 at the matrix `[1, 2, 3, 4]` of dimension 2, whose text is `"1 2\n3 4\n"` when each
value is written as its numerator. -/
theorem output_spec_witness :
    (Matrix.mk 2 [1, 2, 3, 4] : Matrix ℚ).WF ∧ 1 ≤ 2 ∧
    ((∀ i, i < 2 * 2 → outputIndex 2 i = i) ∧
    (∀ i, i < 2 * 2 →
      (separator 2 i = "\n" ↔ (i + 1) % 2 = 0) ∧
      (separator 2 i = " " ↔ (i + 1) % 2 ≠ 0) ∧
      ((i + 1) % 2 = 0 ↔ i % 2 = 2 - 1)) ∧
    Matrix.output (fun x : ℚ => toString x.num) "" (Matrix.mk 2 [1, 2, 3, 4])
      = .ok ("" ++ render (fun x : ℚ => toString x.num) (Matrix.mk 2 [1, 2, 3, 4])) ∧
    render (fun x : ℚ => toString x.num) (Matrix.mk 2 [1, 2, 3, 4])
      = String.join ((List.range 2).flatMap (fun r =>
        ((List.range 2).map (fun c => (fun x : ℚ => toString x.num)
          ([(1 : ℚ), 2, 3, 4].getD (r * 2 + c) 0))).intersperse " " ++ ["\n"]))) :=
  ⟨by decide, by decide,
    output_spec (fun x : ℚ => toString x.num) "" (Matrix.mk 2 [1, 2, 3, 4])
      (by decide) (by decide)⟩

end Claims

end MatrixTreads
